import Mathlib

/-!
# jisho-anki-decks: the crawler `crawl.go`

A shallow embedding of the crawler and proofs about it.

* Go strings are byte sequences (`GoString`).
* The standard-library functions that `crawl.go` calls (`strings.TrimPrefix`,
  `url.QueryUnescape`, `url.PathEscape`, `filepath.Join`, `filepath.Base`, ...)
  are modelled after their Go implementations, on Unix.
* A panic aborts the whole process; functions that can panic return `Except Panic`.
* The files on disk and the request counter are an explicit `World` that `get` reads and
  updates; what the network, the temporary-name generator and the file operations do
  during one call is an explicit `Env`.
* A function that calls another effectful function of `crawl.go` takes it as an argument,
  so that it can be run on the function itself or on a test double.
* Goroutines that are joined by a `sync.WaitGroup` and touch disjoint data are
  run one after the other. The goroutines of `downloadAudios` delete from the map that
  the caller ranges over: they are steps run under an explicit schedule, with the check
  for concurrent writes that the Go runtime makes on a map.
-/

namespace Crawl

/-! ## Go strings -/

/-- One byte of a Go string. -/
abbrev Byte := Fin 256

/-- Go `string`: an immutable sequence of bytes. -/
abbrev GoString := List Byte

/-- UTF-8 bytes of a Lean string literal, used to write Go string constants. -/
def lit (s : String) : GoString :=
  s.data.flatMap fun c => (String.utf8EncodeChar c).map fun b => Fin.ofNat b.toNat

/-! ## package strings -/

/-- Go `strings.HasPrefix(s, pre)`: `len(s) >= len(pre) && s[:len(pre)] == pre`. -/
def hasPrefix (s pre : GoString) : Bool :=
  decide (pre.length ≤ s.length) && decide (s.take pre.length = pre)

/-- Go `strings.TrimPrefix(s, pre)`: `s[len(pre):]` when `HasPrefix(s, pre)`, else `s`. -/
def trimPrefix (s pre : GoString) : GoString :=
  if hasPrefix s pre then s.drop pre.length else s

/-- Go `strings.HasSuffix(s, suf)`: `len(s) >= len(suf) && s[len(s)-len(suf):] == suf`. -/
def hasSuffix (s suf : GoString) : Bool :=
  decide (suf.length ≤ s.length) && decide (s.drop (s.length - suf.length) = suf)

/-- Go `strings.TrimSuffix(s, suf)`: `s[:len(s)-len(suf)]` when `HasSuffix(s, suf)`, else `s`. -/
def trimSuffix (s suf : GoString) : GoString :=
  if hasSuffix s suf then s.take (s.length - suf.length) else s

/-- Go `asciiSpace` table of package strings: tab, newline, vertical tab, form feed,
carriage return, space. -/
def asciiSpace (c : Byte) : Bool :=
  c = 9 || c = 10 || c = 11 || c = 12 || c = 13 || c = 32

/-- Go `utf8.RuneError`, U+FFFD. -/
def runeError : Nat := 65533

/-- Go `utf8.DecodeRuneInString`: the first rune of `s` and its width in bytes; an invalid or
truncated encoding gives `(RuneError, 1)`, the empty string `(RuneError, 0)`. The table
`first` and the `acceptRanges` of package utf8 are written out as byte ranges. -/
def decodeRune (s : GoString) : Nat × Nat :=
  match s with
  | [] => (runeError, 0)
  | s0 :: t =>
    if s0.val < 128 then (s0.val, 1)
    else if s0.val < 194 ∨ 245 ≤ s0.val then (runeError, 1)
    else
      let sz : Nat := if s0.val < 224 then 2 else if s0.val < 240 then 3 else 4
      let lo : Nat := if s0.val = 224 then 160 else if s0.val = 240 then 144 else 128
      let hi : Nat := if s0.val = 237 then 159 else if s0.val = 244 then 143 else 191
      if s.length < sz then (runeError, 1)
      else
        match t with
        | [] => (runeError, 1)
        | s1 :: t1 =>
          if s1.val < lo ∨ hi < s1.val then (runeError, 1)
          else if sz ≤ 2 then ((s0.val % 32) * 64 + s1.val % 64, 2)
          else
            match t1 with
            | [] => (runeError, 1)
            | s2 :: t2 =>
              if s2.val < 128 ∨ 191 < s2.val then (runeError, 1)
              else if sz ≤ 3 then ((s0.val % 16) * 4096 + (s1.val % 64) * 64 + s2.val % 64, 3)
              else
                match t2 with
                | [] => (runeError, 1)
                | s3 :: _ =>
                  if s3.val < 128 ∨ 191 < s3.val then (runeError, 1)
                  else ((s0.val % 8) * 262144 + (s1.val % 64) * 4096
                          + (s2.val % 64) * 64 + s3.val % 64, 4)

/-- Go `utf8.RuneStart(b)`: `b&0xC0 != 0x80`. -/
def runeStart (b : Byte) : Bool := decide (b.val / 64 ≠ 2)

/-- The backwards scan of `utf8.DecodeLastRuneInString`:
`for start--; start >= lim; start-- { if RuneStart(s[start]) { break } }`, run on the index
`start` (an `Int`, it can reach `lim - 1`), `n` bounding the number of iterations. -/
def lastRuneScan (s : GoString) (lim : Int) : Nat → Int → Int
  | 0, start => start
  | n + 1, start =>
    if start < lim then start
    else if runeStart (s.getD start.toNat 0) then start
    else lastRuneScan s lim n (start - 1)

/-- Go `utf8.DecodeLastRuneInString`: the last rune of `s` and its width. -/
def decodeLastRune (s : GoString) : Nat × Nat :=
  let e := s.length
  if e = 0 then (runeError, 0)
  else
    let r := (s.getD (e - 1) 0).val
    if r < 128 then (r, 1)
    else
      let lim : Int := if (e : Int) - 4 < 0 then 0 else (e : Int) - 4
      let start0 := lastRuneScan s lim 4 ((e : Int) - 2)
      let start : Nat := if start0 < 0 then 0 else start0.toNat
      let d := decodeRune (s.drop start)
      if start + d.2 ≠ e then (runeError, 1) else d

/-- Go `unicode.IsSpace`: the Latin-1 cases and the `White_Space` range table. -/
def isSpace (r : Nat) : Bool :=
  decide ((9 ≤ r ∧ r ≤ 13) ∨ r = 32 ∨ r = 133 ∨ r = 160 ∨ r = 5760 ∨ (8192 ≤ r ∧ r ≤ 8202)
    ∨ r = 8232 ∨ r = 8233 ∨ r = 8239 ∨ r = 8287 ∨ r = 12288)

/-- Go `strings.TrimLeftFunc(s, unicode.IsSpace)`: drop leading runes while they are spaces
(`indexFunc` ranges over the runes of `s`; an invalid byte is a `RuneError` of width 1).
The first argument bounds the number of runes. -/
def trimLeftSpace : Nat → GoString → GoString
  | 0, _ => []
  | n + 1, s =>
    match s with
    | [] => []
    | _ :: _ =>
      let d := decodeRune s
      if isSpace d.1 then trimLeftSpace n (s.drop d.2) else s

/-- Go `strings.TrimRightFunc(s, unicode.IsSpace)`: `lastIndexFunc` walks the runes backwards
with `DecodeLastRuneInString` until one is not a space, and the string is cut after that rune.
The first argument bounds the number of runes. -/
def trimRightSpace : Nat → GoString → GoString
  | 0, _ => []
  | n + 1, s =>
    match s with
    | [] => []
    | _ :: _ =>
      let d := decodeLastRune s
      if isSpace d.1 then trimRightSpace n (s.take (s.length - d.2)) else s

/-- The first loop of Go `strings.TrimSpace`: `start` advances over ASCII spaces; it stops
at the first byte that is no ASCII space. The result is the rest of the string from `start`. -/
def trimSpaceStart : GoString → GoString
  | [] => []
  | c :: t => if 128 ≤ c.val then c :: t else if asciiSpace c then trimSpaceStart t else c :: t

/-- The second loop of Go `strings.TrimSpace`, on the string reversed: `stop` retreats over
ASCII spaces. -/
def trimSpaceStop : GoString → GoString
  | [] => []
  | c :: t => if 128 ≤ c.val then c :: t else if asciiSpace c then trimSpaceStop t else c :: t

/-- Go `strings.TrimSpace`: the ASCII fast path from both ends; on meeting a byte
`>= utf8.RuneSelf` at the front it returns `TrimFunc(s[start:], unicode.IsSpace)`, at the back
`TrimRightFunc(s[start:stop], unicode.IsSpace)`. -/
def trimSpace (s : GoString) : GoString :=
  let s1 := trimSpaceStart s
  match s1 with
  | [] => []
  | c :: _ =>
    if 128 ≤ c.val then
      let l := trimLeftSpace (s1.length + 1) s1
      trimRightSpace (l.length + 1) l
    else
      let r := trimSpaceStop s1.reverse
      match r with
      | [] => []
      | d :: _ =>
        if 128 ≤ d.val then trimRightSpace (r.length + 1) r.reverse
        else r.reverse

/-! ## package net/url -/

/-- Go `ishex` of package url. -/
def ishex (c : Byte) : Bool :=
  decide ((48 ≤ c.val ∧ c.val ≤ 57) ∨ (97 ≤ c.val ∧ c.val ≤ 102) ∨ (65 ≤ c.val ∧ c.val ≤ 70))

/-- Go `unhex` of package url. -/
def unhex (c : Byte) : Nat :=
  if 48 ≤ c.val ∧ c.val ≤ 57 then c.val - 48
  else if 97 ≤ c.val ∧ c.val ≤ 102 then c.val - 97 + 10
  else if 65 ≤ c.val ∧ c.val ≤ 70 then c.val - 65 + 10
  else 0

/-- First loop of Go `unescape(s, encodeQueryComponent)`: count the `%` (37), check each is
followed by two hex digits, and note a `+` (43). `none` is the `EscapeError`. -/
def unescapeScan : GoString → Nat → Bool → Option (Nat × Bool)
  | [], n, hasPlus => some (n, hasPlus)
  | c :: s, n, hasPlus =>
    if c = 37 then
      match s with
      | a :: b :: rest => if ishex a && ishex b then unescapeScan rest (n + 1) hasPlus else none
      | _ => none
    else if c = 43 then unescapeScan s n true
    else unescapeScan s n hasPlus

/-- Second loop of Go `unescape(s, encodeQueryComponent)`: `%XY` writes the byte
`unhex(X)<<4 | unhex(Y)`, `+` writes a space (32), every other byte is copied. -/
def unescapeBuild : GoString → GoString
  | [] => []
  | c :: s =>
    if c = 37 then
      match s with
      | a :: b :: rest => Fin.ofNat ((unhex a * 16) % 256 ||| unhex b) :: unescapeBuild rest
      | _ => []
    else if c = 43 then (32 : Byte) :: unescapeBuild s
    else c :: unescapeBuild s

/-- Go `url.QueryUnescape(s)`: the decoded string, or `("", err)` on a malformed escape. The
Boolean is `err == nil`. -/
def queryUnescape (s : GoString) : GoString × Bool :=
  match unescapeScan s 0 false with
  | none => ([], false)
  | some (n, hasPlus) => if n = 0 && !hasPlus then (s, true) else (unescapeBuild s, true)

/-- Go `shouldEscape(c, encodePathSegment)`: letters, digits and `-_.~` are kept, of the
reserved `$&+,/:;=?@` only `/ ; , ?` are escaped, everything else is escaped. -/
def shouldEscape (c : Byte) : Bool :=
  if (97 ≤ c.val ∧ c.val ≤ 122) ∨ (65 ≤ c.val ∧ c.val ≤ 90) ∨ (48 ≤ c.val ∧ c.val ≤ 57) then false
  else if c = 45 ∨ c = 95 ∨ c = 46 ∨ c = 126 then false
  else if c = 36 ∨ c = 38 ∨ c = 43 ∨ c = 44 ∨ c = 47 ∨ c = 58 ∨ c = 59 ∨ c = 61 ∨ c = 63
      ∨ c = 64 then
    decide (c = 47 ∨ c = 59 ∨ c = 44 ∨ c = 63)
  else true

/-- Go `upperhex`: the string `"0123456789ABCDEF"`. -/
def upperhex : GoString := [48, 49, 50, 51, 52, 53, 54, 55, 56, 57, 65, 66, 67, 68, 69, 70]

/-- Go `escape(s, encodePathSegment)`, the building loop: a byte to escape becomes `%`
followed by `upperhex[c>>4]` and `upperhex[c&15]`. (When nothing is to escape Go returns `s`
itself, which is what this loop builds.) -/
def escape : GoString → GoString
  | [] => []
  | c :: s =>
    if shouldEscape c then
      (37 : Byte) :: upperhex.getD (c.val / 16) 0 :: upperhex.getD (c.val % 16) 0 :: escape s
    else c :: escape s

/-- Go `url.PathEscape`. -/
def pathEscape (s : GoString) : GoString := escape s

/-! ## package path/filepath (Unix) -/

/-- The loop `for out.w > dotdot && out.index(out.w) != '/' { out.w-- }` of Go
`filepath.Clean`, on the write index; `/` is 47. -/
def cleanBack (out : GoString) (dotdot : Nat) : Nat → Nat
  | 0 => 0
  | w + 1 => if dotdot < w + 1 ∧ out.getD (w + 1) 0 ≠ 47 then cleanBack out dotdot w else w + 1

/-- The main loop `for r < n` of Go `filepath.Clean`. `path` is what remains to read from
index `r`, `out` the buffer written so far (`out.w` is its length), the first argument bounds
the number of iterations (each reads at least one byte). `/` is 47, `.` is 46. -/
def cleanLoop (rooted : Bool) : Nat → GoString → GoString → Nat → GoString
  | 0, _, out, _ => out
  | fuel + 1, path, out, dotdot =>
    match path with
    | [] => out
    | c :: t =>
      if c = 47 then
        -- empty path element
        cleanLoop rooted fuel t out dotdot
      else if c = 46 ∧ (t = [] ∨ t.head? = some 47) then
        -- . element
        cleanLoop rooted fuel t out dotdot
      else if c = 46 ∧ t.head? = some 46 ∧ (t.tail = [] ∨ t.tail.head? = some 47) then
        -- .. element: remove to last separator
        if dotdot < out.length then
          cleanLoop rooted fuel t.tail (out.take (cleanBack out dotdot (out.length - 1))) dotdot
        else if !rooted then
          let out1 := if 0 < out.length then out ++ [47] else out
          let out2 := out1 ++ [46, 46]
          cleanLoop rooted fuel t.tail out2 out2.length
        else cleanLoop rooted fuel t.tail out dotdot
      else
        -- real path element: add slash if needed, copy element
        let out1 :=
          if (rooted = true ∧ out.length ≠ 1) ∨ (rooted = false ∧ out.length ≠ 0) then out ++ [47]
          else out
        cleanLoop rooted fuel (path.dropWhile (· ≠ 47)) (out1 ++ path.takeWhile (· ≠ 47)) dotdot

/-- Go `filepath.Clean`. -/
def clean (path : GoString) : GoString :=
  match path with
  | [] => [46]
  | c :: t =>
    let rooted : Bool := decide (c = 47)
    let out :=
      if rooted then cleanLoop rooted path.length t [47] 1
      else cleanLoop rooted path.length path [] 0
    if out = [] then [46] else out

/-- Go `filepath.Join`: the elements from the first non-empty one on, joined by `/` and
cleaned; the empty string when all are empty. -/
def join : List GoString → GoString
  | [] => []
  | e :: rest => if e ≠ [] then clean ([47].intercalate (e :: rest)) else join rest

/-- Go `filepath.Base`: the last element of the path, after removing trailing slashes;
`.` for the empty path and `/` for a path of slashes only. -/
def base (path : GoString) : GoString :=
  if path = [] then [46]
  else
    let p := (path.reverse.dropWhile (· = 47)).reverse
    let q := (p.reverse.takeWhile (· ≠ 47)).reverse
    if q = [] then [47] else q

/-! ## Go maps -/

/-- Go `map[string]V`, as the list of its bindings; each key is bound at most once when the
map is built with `GoMap.set`. The order of the list stands for one iteration order. -/
abbrev GoMap (V : Type) := List (GoString × V)

/-- Go `m[k]` with the ok flag: the value bound to `k`, if any. -/
def GoMap.get {V : Type} (m : GoMap V) (k : GoString) : Option V :=
  match m with
  | [] => none
  | (k1, v) :: rest => if k1 = k then some v else GoMap.get rest k

/-- Go `delete(m, k)`. -/
def GoMap.delete {V : Type} (m : GoMap V) (k : GoString) : GoMap V :=
  m.filter fun kv => decide (kv.1 ≠ k)

/-- Go `m[k] = v`: any earlier binding of `k` is replaced. -/
def GoMap.set {V : Type} (m : GoMap V) (k : GoString) (v : V) : GoMap V :=
  GoMap.delete m k ++ [(k, v)]

/-- Keys bound in the map. -/
def GoMap.keys {V : Type} (m : GoMap V) : List GoString := m.map Prod.fst

/-! ## The outside world of `get` -/

/-- Go `http.StatusOK`. -/
def statusOK : Nat := 200

/-- Go `http.StatusNotFound`. -/
def statusNotFound : Nat := 404

/-- A `*http.Response` as far as `get` reads it. -/
structure Response where
  StatusCode : Nat
  Body : GoString
deriving DecidableEq, Repr

/-- Files on disk, by path; `os.Open(p)` succeeds exactly when `p` is bound. -/
abbrev Files := GoMap GoString

/-- State that `get` reads and changes: the files on disk and the number of `http.Get`
requests issued so far. -/
structure World where
  files : Files
  requests : Nat
deriving DecidableEq, Repr

/-- What the outside does during one call of `get`. -/
structure Env where
  /-- answer of the server to the request; `none` is a transport error -/
  response : Option Response
  /-- random suffixes (decimal digits) drawn in turn by `ioutil.TempFile` -/
  tempSuffixes : List (List (Fin 10))
  /-- `io.Copy`: `none` copies the whole body, `some n` fails after writing `n` bytes -/
  copyFails : Option Nat
  /-- whether `os.Rename` succeeds -/
  renameOk : Bool
  /-- whether the final `os.Open` succeeds -/
  openOk : Bool
deriving DecidableEq, Repr

/-- ASCII lower-casing of one byte, as `strings.ToLower` does on ASCII. -/
def toLowerByte (c : Byte) : Byte := if 65 ≤ c.val ∧ c.val ≤ 90 then Fin.ofNat (c.val + 32) else c

/-- Whether the address has the scheme `http` or `https` (`url.Parse` lower-cases the scheme,
which is what precedes the first `:`). -/
def hasHTTPScheme (address : GoString) : Bool :=
  decide ((address.take 5).map toLowerByte = lit "http:")
    || decide ((address.take 6).map toLowerByte = lit "https:")

/-- Go `http.Get(address)` with the default client: an address whose scheme is neither
`http` nor `https` is an error (`unsupported protocol scheme`) before anything is sent;
otherwise the answer is the one of the outside. -/
def httpGet (env : Env) (address : GoString) : Option Response :=
  if hasHTTPScheme address then env.response else none

/-- Name that `ioutil.TempFile("cache", "tmp_")` tries for one random suffix:
`filepath.Join(dir, prefix+nextSuffix())`. -/
def tempName (suffix : List (Fin 10)) : GoString :=
  join [lit "cache", lit "tmp_" ++ suffix.map fun d => Fin.ofNat (48 + d.val)]

/-- Go `ioutil.TempFile("cache", "tmp_")`: the file is created with `O_EXCL`, a name already
taken is skipped and the next suffix tried; `none` is the error. -/
def tempFile (env : Env) (files : Files) : Option GoString :=
  (env.tempSuffixes.map tempName).find? fun name => (GoMap.get files name).isNone

/-- Go `os.Rename(old, new)` on existing `old`: `new` gets the content of `old`, which
disappears; renaming a file to itself changes nothing. -/
def rename (files : Files) (old new : GoString) : Files :=
  if old = new then files
  else
    match GoMap.get files old with
    | none => files
    | some content => GoMap.set (GoMap.delete files old) new content

/-- Result triple `(int, io.ReadCloser, error)` of `get`; the reader is given by the bytes
it yields, `err` is `err != nil`. -/
structure GetResult where
  status : Nat
  body : Option GoString
  err : Bool
deriving DecidableEq, Repr

/-! ## crawl.go -/

/-- Go `urlAPICollocation`. -/
def urlAPICollocation (collocation : GoString) : GoString :=
  lit "http://jisho.org/api/v1/search/words?keyword=" ++ collocation

/-- Go `urlWordPage`. -/
def urlWordPage (word : GoString) : GoString :=
  lit "http://jisho.org/word/" ++ word

/-- Final cache file name of an address: `filepath.Join("cache", url.PathEscape(address))`,
the first line of `get`. -/
def cacheFilename (address : GoString) : GoString :=
  join [lit "cache", pathEscape address]

/-- Go `get`. The deferred calls run on every return after their `defer`: `tmp.Close()` and
`os.Remove(tmp.Name())`. The permit taken from `rateLimiter` is given back by a deferred
send on every path, so the pool is unchanged by a call and is left out of the state. -/
def get (env : Env) (w : World) (address : GoString) : GetResult × World :=
  let filename := cacheFilename address
  match GoMap.get w.files filename with
  | some content => (⟨statusOK, some content, false⟩, w)
  | none =>
    let w1 : World := { w with requests := w.requests + 1 }
    match httpGet env address with
    | none => (⟨0, none, true⟩, w1)
    | some res =>
      match tempFile env w1.files with
      | none => (⟨0, none, true⟩, w1)
      | some tmp =>
        let files1 := GoMap.set w1.files tmp []
        if res.StatusCode ≠ statusOK then
          (⟨res.StatusCode, none, false⟩, { w1 with files := GoMap.delete files1 tmp })
        else
          match env.copyFails with
          | some n =>
            (⟨0, none, true⟩,
              { w1 with files := GoMap.delete (GoMap.set files1 tmp (res.Body.take n)) tmp })
          | none =>
            let files2 := GoMap.set files1 tmp res.Body
            if !env.renameOk then (⟨0, none, true⟩, { w1 with files := GoMap.delete files2 tmp })
            else
              let files3 := rename files2 tmp filename
              if !env.openOk then
                (⟨0, none, true⟩, { w1 with files := GoMap.delete files3 tmp })
              else
                (⟨statusOK, GoMap.get files3 filename, false⟩,
                  { w1 with files := GoMap.delete files3 tmp })

/-- Go `parseCollocationSrc`; the error of `url.QueryUnescape` is dropped. -/
def parseCollocationSrc (src : GoString) : GoString :=
  let search := (queryUnescape (trimPrefix src (lit "/search/"))).1
  trimSpace (trimSuffix search (lit "#words"))

/-! ### Data model -/

/-- Go `Audio`. -/
structure Audio where
  Src : GoString
  Filename : GoString
deriving DecidableEq, Repr

/-- Go `Audios`, a `map[string]*Audio` keyed by the audio type. -/
abbrev Audios := GoMap Audio

/-- One element of `Word.Japanese`: a written form and a reading. -/
structure Japanese where
  Word : GoString
  Reading : GoString
deriving DecidableEq, Repr

/-- Fields of Go `Word`, over the type `C` of collocations. The senses and the attribution,
which `crawl.go` only decodes and encodes, are left out. A nil map or slice is `none`. -/
structure WordOf (C : Type) where
  IsCommon : Bool
  Tags : List GoString
  Japanese : List Japanese
  Collocations : Option (List C)
  Audios : Option Audios
  JishoWordPage : GoString
deriving Repr

/-- Go `Collocation`; a nil `Word` pointer is `none`. -/
inductive Collocation where
  | mk (Raw : GoString) (Src : GoString) (Word : Option (WordOf Collocation))

/-- Go `Word`. -/
abbrev Word := WordOf Collocation

/-- Go `Collocations`. -/
abbrev Collocations := List Collocation

/-- Field `Raw` of a collocation. -/
def Collocation.Raw : Collocation → GoString
  | .mk raw _ _ => raw

/-- Field `Src` of a collocation. -/
def Collocation.Src : Collocation → GoString
  | .mk _ src _ => src

/-- Field `Word` of a collocation. -/
def Collocation.Word : Collocation → Option Word
  | .mk _ _ word => word

/-- Assignment `collocation.Word = word`. -/
def Collocation.setWord (c : Collocation) (word : WordOf Collocation) : Collocation :=
  .mk c.Raw c.Src (some word)

/-- Go `Search`. -/
structure Search where
  Status : Nat
  Data : List Word

/-- Go `html.Attribute`. -/
structure Attribute where
  Key : GoString
  Val : GoString
deriving DecidableEq, Repr

/-- Values of `html.Node.DataAtom` that `parseWordPage` tells apart. -/
inductive Atom where
  | Audio
  | Div
  | other
deriving DecidableEq, Repr

/-- Go `html.Node`: the chain `FirstChild`, `NextSibling`, ... is the list `children`. -/
inductive Node where
  | mk (DataAtom : Atom) (Data : GoString) (Attr : List Attribute) (children : List Node)

/-- Field `DataAtom` of a node. -/
def Node.DataAtom : Node → Atom
  | .mk a _ _ _ => a

/-- Field `Data` of a node. -/
def Node.Data : Node → GoString
  | .mk _ d _ _ => d

/-- Field `Attr` of a node. -/
def Node.Attr : Node → List Attribute
  | .mk _ _ attr _ => attr

/-- Children of a node, from `FirstChild` along `NextSibling`. -/
def Node.children : Node → List Node
  | .mk _ _ _ cs => cs

/-! ### Panics and effects -/

/-- Reasons for which the process aborts. -/
inductive Panic where
  /-- the call `panic(err)` -/
  | err
  /-- the call `panic(fmt.Sprintf("Status %v: %s", status, address))` -/
  | status (code : Nat) (address : GoString)
  /-- runtime error: index out of range -/
  | indexOutOfRange
  /-- runtime error: nil pointer dereference -/
  | nilDereference
  /-- fatal error: concurrent map writes -/
  | concurrentMapWrites
  /-- fatal error: concurrent map iteration and map write -/
  | concurrentMapIteration
deriving DecidableEq, Repr

/-- A computation on a state `σ` that returns a value or panics. -/
abbrev Run (σ α : Type) := σ → Except Panic (α × σ)

/-- Result `(Audios, Collocations, bool)` of `parseWordPage`. -/
abbrev Page := Option Audios × Option Collocations × Bool

/-- Result `(string, Audios, Collocations, bool)` of `findAndParseWordPage`. -/
abbrev Found := GoString × Option Audios × Option Collocations × Bool

/-! ### Functions -/

/-- Go `parseAPI`, over the function `get` it calls and the JSON decoder (`none` is a
decoding error). -/
def parseAPI {σ : Type} (get : GoString → σ → GetResult × σ)
    (decode : GoString → Option Search) (address : GoString) : Run σ (List Word) :=
  fun s =>
    let (r, s1) := get address s
    if r.err then .error .err
    else if r.status ≠ statusOK then .error (.status r.status address)
    else
      match r.body with
      | none => .error .nilDereference
      | some body =>
        match decode body with
        | none => .error .err
        | some search => .ok (search.Data, s1)

/-- The loops of Go `findAndParseWordPage` over the readings still to visit. The two nested
`for` loops visit `jap.Word`, `jap.Reading` of each element of `word.Japanese` in turn and a
`return` leaves both, so they are one loop over that sequence. -/
def findAndParseWordPageLoop {σ : Type} (parseWordPage : GoString → Run σ Page) :
    List GoString → GoMap Bool → Run σ Found
  | [], _, s => .ok (([], none, none, false), s)
  | reading :: rest, tried, s =>
    if (GoMap.get tried reading).isSome ∨ reading = [] then
      findAndParseWordPageLoop parseWordPage rest tried s
    else
      let tried1 := GoMap.set tried reading true
      let address := urlWordPage reading
      match parseWordPage address s with
      | .error e => .error e
      | .ok ((audios, collocations, ok), s1) =>
        if ok then .ok ((reading, audios, collocations, true), s1)
        else findAndParseWordPageLoop parseWordPage rest tried1 s1

/-- Go `findAndParseWordPage`, over the function `parseWordPage` it calls. -/
def findAndParseWordPage {σ : Type} (parseWordPage : GoString → Run σ Page) (word : Word) :
    Run σ Found :=
  findAndParseWordPageLoop parseWordPage
    (word.Japanese.flatMap fun jap => [jap.Word, jap.Reading]) []

/-- The loop over `source.Attr` in Go `getAudios`: the last `src` and the last `type`
attribute are kept. -/
def sourceAttrs : List Attribute → GoString → GoString → GoString × GoString
  | [], src, _type => (src, _type)
  | attr :: rest, src, _type =>
    if attr.Key = lit "src" then sourceAttrs rest attr.Val _type
    else if attr.Key = lit "type" then sourceAttrs rest src attr.Val
    else sourceAttrs rest src _type

/-- The loop over the children of the audio node in Go `getAudios`. -/
def getAudiosLoop : List Node → Audios → Audios
  | [], audios => audios
  | source :: rest, audios =>
    let (src, _type) := sourceAttrs source.Attr [] []
    getAudiosLoop rest (GoMap.set audios _type { Src := src, Filename := [] })

/-- Go `getAudios`. -/
def getAudios (audioNode : Node) : Audios :=
  getAudiosLoop audioNode.children []

/-- The loop over `li.FirstChild.Attr` in Go `getCollocations`: the value of the first
`href` attribute, the empty string when there is none. -/
def hrefAttr : List Attribute → GoString
  | [] => []
  | attr :: rest => if attr.Key ≠ lit "href" then hrefAttr rest else attr.Val

/-- The loop over the list items in Go `getCollocations`. -/
def getCollocationsLoop : List Node → Collocations → Except Panic Collocations
  | [], collocations => .ok collocations
  | li :: rest, collocations =>
    match li.children with
    | [] => .error .nilDereference
    | a :: _ =>
      match a.children with
      | [] => .error .nilDereference
      | text :: _ =>
        let collocation : Collocation := .mk text.Data (hrefAttr a.Attr) none
        getCollocationsLoop rest (collocations ++ [collocation])

/-- Go `getCollocations`. -/
def getCollocations (div : Node) : Except Panic Collocations :=
  match div.children with
  | [] => .error .nilDereference
  | ul :: _ => getCollocationsLoop ul.children []

/-- The loop over the children of one status node in Go `parseWordPage`. -/
def parseWordPageChildren :
    List Node → Option Audios → Option Collocations →
      Except Panic (Option Audios × Option Collocations)
  | [], audios, collocations => .ok (audios, collocations)
  | child :: rest, audios, collocations =>
    match child.DataAtom with
    | .Audio => parseWordPageChildren rest (some (getAudios child)) collocations
    | .Div =>
      match getCollocations child with
      | .error e => .error e
      | .ok cs => parseWordPageChildren rest audios (some cs)
    | .other => parseWordPageChildren rest audios collocations

/-- The loop over the status nodes in Go `parseWordPage`. -/
def parseWordPageNodes :
    List Node → Option Audios → Option Collocations →
      Except Panic (Option Audios × Option Collocations)
  | [], audios, collocations => .ok (audios, collocations)
  | node :: rest, audios, collocations =>
    match parseWordPageChildren node.children audios collocations with
    | .error e => .error e
    | .ok (audios1, collocations1) => parseWordPageNodes rest audios1 collocations1

/-- Go `parseWordPage`, over the function `get` it calls and the document reader:
`findStatus body` is `goquery.NewDocumentFromReader(body)` followed by
`doc.Find(".concept_light-status").Nodes`, `none` when the reader fails. -/
def parseWordPage {σ : Type} (get : GoString → σ → GetResult × σ)
    (findStatus : GoString → Option (List Node)) (address : GoString) : Run σ Page :=
  fun s =>
    let (r, s1) := get address s
    if r.err then .error .err
    else if r.status = statusNotFound then .ok ((none, none, false), s1)
    else if r.status ≠ statusOK then .error (.status r.status address)
    else
      match r.body with
      | none => .error .nilDereference
      | some body =>
        match findStatus body with
        | none => .error .err
        | some nodes =>
          match parseWordPageNodes nodes none none with
          | .error e => .error e
          | .ok (audios, collocations) => .ok ((audios, collocations, true), s1)

/-- Assignment `audio.Filename = name` through the pointer stored under `_type`. -/
def setFilename (audios : Audios) (_type : GoString) (name : GoString) : Audios :=
  audios.map fun kv => if kv.1 = _type then (kv.1, { kv.2 with Filename := name }) else kv

/-- Where one goroutine started by `downloadAudios` stands. -/
inductive Download where
  /-- started with its `_type` and `audio`, before the call `get(audio.Src)` -/
  | fetching (_type : GoString) (audio : Audio)
  /-- inside `delete(audios, _type)`: it has set the flag `hashWriting` of the map -/
  | deleting (_type : GoString)
  /-- returned -/
  | done
deriving DecidableEq, Repr

/-- State of one call of `downloadAudios`. -/
structure Downloads (σ : Type) where
  /-- the map `audios`, shared by the caller and the goroutines -/
  audios : Audios
  /-- flag `hashWriting` of the map: some goroutine is inside a write to it -/
  writing : Bool
  /-- bindings that `range audios` has yet to reach; `none` once the loop has ended and the
  caller is in `wg.Wait()` -/
  pending : Option (List (GoString × Audio))
  /-- the goroutines started so far, in the order of their start -/
  goroutines : List Download
  /-- the state outside, on which `get` and the file writes act -/
  outside : σ

/-- One step of the caller in Go `downloadAudios`: the next iteration of
`for _type, audio := range audios`, which starts a goroutine. The runtime aborts the process
when it advances a map iterator while the map is being written; a binding deleted before the
loop reaches it is not produced. -/
def rangeStep {σ : Type} (d : Downloads σ) : Except Panic (Downloads σ) :=
  match d.pending with
  | none => .ok d
  | some bindings =>
    if d.writing then .error .concurrentMapIteration
    else
      match bindings with
      | [] => .ok { d with pending := none }
      | (_type, audio) :: rest =>
        if (GoMap.get d.audios _type).isNone then .ok { d with pending := some rest }
        else
          .ok { d with pending := some rest,
                       goroutines := d.goroutines ++ [.fetching _type audio] }

/-- One step of the goroutine number `i` of Go `downloadAudios`. A goroutine that has not
called `get` yet calls it and goes on to the point where it touches the map or returns: on
status not found it enters `delete(audios, _type)`, where the runtime aborts the process when
the map is already being written (`concurrent map writes`) and else sets the flag; on status
OK it sets `audio.Filename` through its pointer and writes the file. A goroutine inside
`delete` removes its binding and clears the flag. `writeFile name body` is
`os.OpenFile(name, O_WRONLY|O_CREATE|O_TRUNC)` followed by `io.Copy`, `none` when one of
them fails. -/
def goroutineStep {σ : Type} (get : GoString → σ → GetResult × σ)
    (writeFile : GoString → GoString → σ → Option σ) (i : Nat) (d : Downloads σ) :
    Except Panic (Downloads σ) :=
  match d.goroutines.get? i with
  | none => .ok d
  | some .done => .ok d
  | some (.deleting _type) =>
    .ok { d with audios := GoMap.delete d.audios _type, writing := false,
                 goroutines := d.goroutines.set i .done }
  | some (.fetching _type audio) =>
    let (r, s1) := get audio.Src d.outside
    if r.err then .error .err
    else if r.status = statusNotFound then
      if d.audios = [] then
        .ok { d with goroutines := d.goroutines.set i .done, outside := s1 }
      else if d.writing then .error .concurrentMapWrites
      else
        .ok { d with writing := true, goroutines := d.goroutines.set i (.deleting _type),
                     outside := s1 }
    else if r.status ≠ statusOK then .error (.status r.status audio.Src)
    else
      match r.body with
      | none => .error .nilDereference
      | some body =>
        let filename := join [lit "audio", base audio.Src]
        match writeFile filename body s1 with
        | none => .error .err
        | some s2 =>
          .ok { d with audios := setFilename d.audios _type (base audio.Src),
                       goroutines := d.goroutines.set i .done, outside := s2 }

/-- The steps of a call of `downloadAudios` in the order of a schedule: 0 lets the caller
take its next step, `i + 1` the goroutine number `i`. -/
def runDownloads {σ : Type} (get : GoString → σ → GetResult × σ)
    (writeFile : GoString → GoString → σ → Option σ) :
    List Nat → Downloads σ → Except Panic (Downloads σ)
  | [], d => .ok d
  | 0 :: schedule, d =>
    match rangeStep d with
    | .error e => .error e
    | .ok d1 => runDownloads get writeFile schedule d1
  | (i + 1) :: schedule, d =>
    match goroutineStep get writeFile i d with
    | .error e => .error e
    | .ok d1 => runDownloads get writeFile schedule d1

/-- Whether `wg.Wait()` returns: the loop has ended and every goroutine has returned. -/
def Downloads.finished {σ : Type} (d : Downloads σ) : Bool :=
  d.pending.isNone && d.goroutines.all fun g => decide (g = .done)

/-- Go `downloadAudios`, over the function `get` it calls and the file writer, under a
schedule of its caller and goroutines. The map is changed in place. -/
def downloadAudios {σ : Type} (get : GoString → σ → GetResult × σ)
    (writeFile : GoString → GoString → σ → Option σ) (schedule : List Nat)
    (audios : Audios) (s : σ) : Except Panic (Downloads σ) :=
  runDownloads get writeFile schedule
    { audios := audios, writing := false, pending := some audios, goroutines := [],
      outside := s }

/-- Lines 162 to 164 of `main`, also lines 127 to 129: `downloadAudios` when the map is
not nil. -/
def downloadIfAny {σ : Type} (downloadAudios : Audios → Run σ Audios) (word : Word) :
    Run σ Word :=
  fun s =>
    match word.Audios with
    | none => .ok (word, s)
    | some audios =>
      match downloadAudios audios s with
      | .error e => .error e
      | .ok (audios1, s1) => .ok ({ word with Audios := some audios1 }, s1)

/-- The goroutine of `main` that resolves one collocation (lines 140 to 165), over the
functions it calls. The result is the collocation as the goroutine leaves it. -/
def resolveCollocation {σ : Type} (parseAPI : GoString → Run σ (List Word))
    (parseWordPage : GoString → Run σ Page) (downloadAudios : Audios → Run σ Audios)
    (collocation : Collocation) : Run σ Collocation :=
  fun s =>
    let kanji := parseCollocationSrc collocation.Src
    match parseAPI (urlAPICollocation kanji) s with
    | .error e => .error e
    | .ok (words, s1) =>
      match words with
      | [] => .error .indexOutOfRange
      | word0 :: _ =>
        match findAndParseWordPage parseWordPage word0 s1 with
        | .error e => .error e
        | .ok ((page, audios, _, ok), s2) =>
          let word1 : Word := { word0 with JishoWordPage := page, Audios := audios }
          if !ok then
            match parseWordPage (urlWordPage kanji) s2 with
            | .error e => .error e
            | .ok ((audios2, _, ok2), s3) =>
              let word2 : Word := { word1 with Audios := audios2 }
              if !ok2 then .ok (collocation.setWord word2, s3)
              else
                let word3 : Word := { word2 with JishoWordPage := kanji }
                match downloadIfAny downloadAudios word3 s3 with
                | .error e => .error e
                | .ok (word4, s4) => .ok (collocation.setWord word4, s4)
          else
            match downloadIfAny downloadAudios word1 s2 with
            | .error e => .error e
            | .ok (word4, s4) => .ok (collocation.setWord word4, s4)

/-- The goroutines that resolve the collocations of one word (lines 137 to 168), run in
turn. -/
def resolveCollocations {σ : Type} (resolve : Collocation → Run σ Collocation) :
    List Collocation → Run σ (List Collocation)
  | [], s => .ok ([], s)
  | c :: rest, s =>
    match resolve c s with
    | .error e => .error e
    | .ok (c1, s1) =>
      match resolveCollocations resolve rest s1 with
      | .error e => .error e
      | .ok (rest1, s2) => .ok (c1 :: rest1, s2)

/-- The goroutine of `main` that enriches one word (lines 115 to 169), over the functions
it calls. The result is the word as the goroutine leaves it. -/
def enrichWord {σ : Type} (parseAPI : GoString → Run σ (List Word))
    (parseWordPage : GoString → Run σ Page) (downloadAudios : Audios → Run σ Audios)
    (word : Word) : Run σ Word :=
  fun s =>
    match findAndParseWordPage parseWordPage word s with
    | .error e => .error e
    | .ok ((page, audios, collocations, ok), s1) =>
      let word1 : Word :=
        { word with JishoWordPage := page, Audios := audios, Collocations := collocations }
      if !ok then .ok (word1, s1)
      else
        match downloadIfAny downloadAudios word1 s1 with
        | .error e => .error e
        | .ok (word2, s2) =>
          match word2.Collocations with
          | none => .ok (word2, s2)
          | some cs =>
            match resolveCollocations
                (resolveCollocation parseAPI parseWordPage downloadAudios) cs s2 with
            | .error e => .error e
            | .ok (cs1, s3) => .ok ({ word2 with Collocations := some cs1 }, s3)

/-- The loop `for word := range wordsCh` of `main` (lines 98 to 113) on the words in the order
in which they arrive: the map `words` and, in order, the words for which an enriching
goroutine is started. Indexing `word.Japanese[0]` panics on an empty slice. -/
def mainLoop : List Word → GoMap Word → List Word → Except Panic (GoMap Word × List Word)
  | [], words, started => .ok (words, started)
  | word :: rest, words, started =>
    match word.Japanese with
    | [] => .error .indexOutOfRange
    | jap0 :: _ =>
      let key := if jap0.Word ≠ [] then jap0.Word else jap0.Reading
      if (GoMap.get words key).isSome then mainLoop rest words started
      else mainLoop rest (GoMap.set words key word) (started ++ [word])

/-! ### Notions of the specification -/

/-- Canonical key of an entry, in the words of the specification: the written form of the
first pair if it is not empty, else the reading of that pair. An entry without pairs has
none. -/
def canonicalKey (word : Word) : Option GoString :=
  match word.Japanese with
  | [] => none
  | first :: _ => some (if first.Word = [] then first.Reading else first.Word)

/-- The first occurrence of each string, in order. -/
def firstOccurrences : List GoString → List GoString
  | [] => []
  | x :: xs => x :: (firstOccurrences xs).filter fun y => decide (y ≠ x)

/-- Candidate identifiers of an entry, in the words of the specification: for each pair in
order the written form then the reading, without the empty strings and without what came
before. -/
def candidates (word : Word) : List GoString :=
  firstOccurrences
    ((word.Japanese.flatMap fun pair => [pair.Word, pair.Reading]).filter
      fun id => decide (id ≠ []))

/-- Probing identifiers in the order of the list until one is found, in the words of the
specification: the first found identifier is returned with its page, the rest is not probed;
when none is found the result is empty. -/
def probeInOrder {σ : Type} (probe : GoString → Run σ Page) : List GoString → Run σ Found
  | [], s => .ok (([], none, none, false), s)
  | id :: rest, s =>
    match probe (urlWordPage id) s with
    | .error e => .error e
    | .ok ((audios, collocations, ok), s1) =>
      if ok then .ok ((id, audios, collocations, true), s1)
      else probeInOrder probe rest s1

/-- Value of a hexadecimal digit, `none` for any other byte. -/
def hexValue (c : Byte) : Option Nat :=
  if 48 ≤ c.val ∧ c.val ≤ 57 then some (c.val - 48)
  else if 65 ≤ c.val ∧ c.val ≤ 70 then some (c.val - 55)
  else if 97 ≤ c.val ∧ c.val ≤ 102 then some (c.val - 87)
  else none

/-- Percent-decoding: each `%` followed by two hexadecimal digits becomes the byte with that
value, any other byte stays; a `%` that is not followed by two hexadecimal digits cannot be
decoded. With `plusIsSpace` the byte `+` becomes a space, as in a URL query. -/
def percentDecode (plusIsSpace : Bool) : GoString → Option GoString
  | [] => some []
  | c :: s =>
    if c = 37 then
      match s with
      | x :: y :: rest =>
        match hexValue x, hexValue y with
        | some h, some l =>
          (percentDecode plusIsSpace rest).map fun d => Fin.ofNat (16 * h + l) :: d
        | _, _ => none
      | _ => none
    else if c = 43 ∧ plusIsSpace = true then
      (percentDecode plusIsSpace s).map fun d => (32 : Byte) :: d
    else (percentDecode plusIsSpace s).map fun d => c :: d

/-- Removing a fixed string from the front of `s` when `s` starts with it. -/
def removeFront (front s : GoString) : GoString :=
  if front.isPrefixOf s then s.drop front.length else s

/-- Removing a fixed string from the end of `s` when `s` ends with it. -/
def removeEnd (ending s : GoString) : GoString :=
  if ending.isSuffixOf s then s.take (s.length - ending.length) else s

/-- The query string of a collocation as the specification words it: remove the fixed front
`/search/`, percent-decode, remove the fixed ending `#words`, remove surrounding whitespace.
It is undefined when the percent-decoding is. -/
def statedCollocationQuery (src : GoString) : Option GoString :=
  (percentDecode false (removeFront (lit "/search/") src)).map fun decoded =>
    trimSpace (removeEnd (lit "#words") decoded)

/-- The query string of a collocation as the code has it: the decoding is the one of a URL
query (`+` is a space), and a source that cannot be decoded counts as decoded to the empty
string. -/
def decodedCollocationQuery (src : GoString) : GoString :=
  trimSpace (removeEnd (lit "#words")
    ((percentDecode true (removeFront (lit "/search/") src)).getD []))

/-- Value of an attribute of a node: the value of the last attribute with that key, `none`
when the node has no attribute with that key. -/
def attrValue (key : GoString) (attrs : List Attribute) : Option GoString :=
  (attrs.reverse.find? fun a => decide (a.Key = key)).map fun a => a.Val

/-- The source and type pair that a child of the audio node declares: the values of its `src`
and of its `type` attribute. A child that lacks one of the two, a text node for one, declares
no pair. -/
def declaredPair (source : Node) : Option (GoString × GoString) :=
  match attrValue (lit "src") source.Attr, attrValue (lit "type") source.Attr with
  | some src, some _type => some (src, _type)
  | _, _ => none

/-- The source and type pairs that the children of an audio node declare, in order. -/
def declaredPairs (audioNode : Node) : List (GoString × GoString) :=
  audioNode.children.filterMap declaredPair

/-! ### Test doubles and examples -/

/-- A test double of `parseWordPage`: the detail pages that exist are given by `pages`, and
the state is the log of the addresses asked so far. -/
def recordingProbe (pages : GoString → Option (Option Audios × Option Collocations)) :
    GoString → Run (List GoString) Page :=
  fun address log =>
    match pages address with
    | some (audios, collocations) => .ok ((audios, collocations, true), log ++ [address])
    | none => .ok ((none, none, false), log ++ [address])

/-- A test double of `get` for audio sources: a found source answers OK with a body, any
other answers not found; the state counts the calls. -/
def audioGet (found : GoString → Bool) : GoString → Nat → GetResult × Nat :=
  fun address n =>
    if found address then (⟨statusOK, some (lit "sound"), false⟩, n + 1)
    else (⟨statusNotFound, none, false⟩, n + 1)

/-- A test double of the file writer that always succeeds. -/
def audioWrite : GoString → GoString → Nat → Option Nat :=
  fun _ _ n => some n

/-- Audios of a detail page with two sources. -/
def exampleAudios : Audios :=
  [(lit "audio/mpeg", { Src := lit "http://x/a.mp3", Filename := [] }),
   (lit "audio/ogg", { Src := lit "http://x/a.ogg", Filename := [] })]

/-- None of the audio sources exists. -/
def exampleNoneFound : GoString → Bool :=
  fun _ => false

/-- A test double of `parseAPI`: every search answers with the list `data`. -/
def searchReturning (data : List Word) : GoString → Run (List GoString) (List Word) :=
  fun _ log => .ok (data, log)

/-- A test double of `downloadAudios` that leaves the audios as they are. -/
def keepAudios : Audios → Run (List GoString) Audios :=
  fun audios log => .ok (audios, log)

/-- The only detail page that exists is the one of `neko no te`, without audio. -/
def examplePages : GoString → Option (Option Audios × Option Collocations) :=
  fun address => if address = urlWordPage (lit "neko no te") then some (none, none) else none

/-- A collocation as `getCollocations` makes it. -/
def exampleCollocation : Collocation :=
  .mk (lit "neko no te - cat paw") (lit "/search/neko%20no%20te#words") none

/-- An entry as the search decodes it, with the single pair `neko`, `ねこ`. -/
def exampleEntry : Word :=
  { IsCommon := true, Tags := [], Japanese := [⟨lit "neko", lit "ねこ"⟩],
    Collocations := none, Audios := none, JishoWordPage := [] }

/-- The detail page of `neko` exists and lists the example collocation. -/
def examplePagesWithCollocation :
    GoString → Option (Option Audios × Option Collocations) :=
  fun address =>
    if address = urlWordPage (lit "neko") then some (none, some [exampleCollocation])
    else none


/-- An empty disk on which no request has been made. -/
def exampleWorld : World := { files := [], requests := 0 }

/-- The server answers OK with a page and every file operation succeeds. -/
def exampleEnvOK : Env :=
  { response := some ⟨200, lit "page"⟩, tempSuffixes := [[4, 2]], copyFails := none,
    renameOk := true, openOk := true }

/-- The network is down. -/
def exampleEnvDown : Env :=
  { response := none, tempSuffixes := [], copyFails := none, renameOk := false,
    openOk := false }

/-- The server answers with status 404. -/
def exampleEnvNotFound : Env :=
  { response := some ⟨404, lit "no"⟩, tempSuffixes := [[4, 2]], copyFails := none,
    renameOk := true, openOk := true }

/-- The server answers OK and the copy of the body fails after two bytes. -/
def exampleEnvCopyFails : Env :=
  { response := some ⟨200, lit "page"⟩, tempSuffixes := [[4, 2]], copyFails := some 2,
    renameOk := true, openOk := true }

/-- An audio node with two sources of the same type. -/
def exampleAudioNode : Node :=
  .mk .Audio (lit "audio") []
    [.mk .other (lit "source")
        [⟨lit "src", lit "http://x/a.mp3"⟩, ⟨lit "type", lit "audio/mpeg"⟩] [],
     .mk .other (lit "source")
        [⟨lit "src", lit "http://x/b.mp3"⟩, ⟨lit "type", lit "audio/mpeg"⟩] []]

/-- Entries in the order of their arrival: a cat, a dog, and a second cat with another
reading. -/
def exampleArrivals : List Word :=
  [{ IsCommon := true, Tags := [], Japanese := [⟨lit "猫", lit "ねこ"⟩],
     Collocations := none, Audios := none, JishoWordPage := [] },
   { IsCommon := true, Tags := [], Japanese := [⟨lit "犬", lit "いぬ"⟩],
     Collocations := none, Audios := none, JishoWordPage := [] },
   { IsCommon := false, Tags := [], Japanese := [⟨lit "猫", lit "ネコ"⟩],
     Collocations := none, Audios := none, JishoWordPage := [] }]

/-- An audio node with a source of each of two types. -/
def exampleAudioNodeTwoTypes : Node :=
  .mk .Audio (lit "audio") []
    [.mk .other (lit "source")
        [⟨lit "src", lit "http://x/a.mp3"⟩, ⟨lit "type", lit "audio/mpeg"⟩] [],
     .mk .other (lit "source")
        [⟨lit "src", lit "http://x/a.ogg"⟩, ⟨lit "type", lit "audio/ogg"⟩] []]

/-! ## Theorems -/

/-! ### Go maps -/

theorem GoMap.get_cons {V : Type} (k1 : GoString) (v : V) (rest : GoMap V) (k : GoString) :
    GoMap.get ((k1, v) :: rest) k = if k1 = k then some v else GoMap.get rest k := rfl

theorem GoMap.delete_cons {V : Type} (k1 : GoString) (v : V) (rest : GoMap V) (k : GoString) :
    GoMap.delete ((k1, v) :: rest) k
      = if k1 = k then GoMap.delete rest k else (k1, v) :: GoMap.delete rest k := by
  by_cases h : k1 = k <;> simp [GoMap.delete, List.filter_cons, h]

theorem GoMap.get_append {V : Type} (m n : GoMap V) (k : GoString) :
    GoMap.get (m ++ n) k = (GoMap.get m k).orElse fun _ => GoMap.get n k := by
  induction m with
  | nil => simp [GoMap.get]
  | cons kv rest ih =>
    obtain ⟨k1, v⟩ := kv
    rw [List.cons_append, GoMap.get_cons, GoMap.get_cons, ih]
    split_ifs <;> rfl

theorem GoMap.get_delete_self {V : Type} (m : GoMap V) (k : GoString) :
    GoMap.get (GoMap.delete m k) k = none := by
  induction m with
  | nil => rfl
  | cons kv rest ih =>
    obtain ⟨k1, v⟩ := kv
    rw [GoMap.delete_cons]
    split_ifs with h
    · exact ih
    · rw [GoMap.get_cons, if_neg h, ih]

theorem GoMap.get_delete_ne {V : Type} (m : GoMap V) (k k2 : GoString) (h : k2 ≠ k) :
    GoMap.get (GoMap.delete m k) k2 = GoMap.get m k2 := by
  induction m with
  | nil => rfl
  | cons kv rest ih =>
    obtain ⟨k1, v⟩ := kv
    rw [GoMap.delete_cons]
    split_ifs with h1
    · have h2 : ¬ k1 = k2 := fun e => h (e.symm.trans h1)
      rw [GoMap.get_cons, if_neg h2, ih]
    · rw [GoMap.get_cons, GoMap.get_cons, ih]

theorem GoMap.get_set_self {V : Type} (m : GoMap V) (k : GoString) (v : V) :
    GoMap.get (GoMap.set m k v) k = some v := by
  rw [GoMap.set, GoMap.get_append, GoMap.get_delete_self, GoMap.get_cons, if_pos rfl]
  rfl

theorem GoMap.get_set_ne {V : Type} (m : GoMap V) (k k2 : GoString) (v : V) (h : k2 ≠ k) :
    GoMap.get (GoMap.set m k v) k2 = GoMap.get m k2 := by
  rw [GoMap.set, GoMap.get_append, GoMap.get_delete_ne _ _ _ h, GoMap.get_cons,
    if_neg (fun e => h e.symm)]
  cases GoMap.get m k2 <;> rfl

theorem GoMap.mem_keys_iff {V : Type} (m : GoMap V) (k : GoString) :
    k ∈ GoMap.keys m ↔ (GoMap.get m k).isSome = true := by
  induction m with
  | nil => simp [GoMap.keys, GoMap.get]
  | cons kv rest ih =>
    obtain ⟨k1, v⟩ := kv
    rw [GoMap.get_cons]
    have hk : GoMap.keys ((k1, v) :: rest) = k1 :: GoMap.keys rest := rfl
    rw [hk, List.mem_cons]
    split_ifs with h
    · simp [h]
    · rw [← ih]
      constructor
      · rintro (e | e)
        · exact absurd e.symm h
        · exact e
      · exact Or.inr

theorem GoMap.keys_delete {V : Type} (m : GoMap V) (k : GoString) :
    GoMap.keys (GoMap.delete m k) = (GoMap.keys m).filter fun k1 => decide (k1 ≠ k) := by
  induction m with
  | nil => rfl
  | cons kv rest ih =>
    obtain ⟨k1, v⟩ := kv
    have hk : GoMap.keys ((k1, v) :: rest) = k1 :: GoMap.keys rest := rfl
    rw [GoMap.delete_cons, hk, List.filter_cons]
    by_cases h : k1 = k
    · simp only [h, if_true, ne_eq, not_true_eq_false, decide_False]
      simpa using ih
    · simp only [h, if_false, ne_eq, not_false_eq_true, decide_True, if_true]
      have hk2 : GoMap.keys ((k1, v) :: GoMap.delete rest k)
          = k1 :: GoMap.keys (GoMap.delete rest k) := rfl
      rw [hk2, ih]

theorem GoMap.keys_set {V : Type} (m : GoMap V) (k : GoString) (v : V) :
    GoMap.keys (GoMap.set m k v) = ((GoMap.keys m).filter fun k1 => decide (k1 ≠ k)) ++ [k] := by
  rw [← GoMap.keys_delete]
  simp [GoMap.set, GoMap.keys]

theorem GoMap.nodup_keys_delete {V : Type} (m : GoMap V) (k : GoString)
    (h : (GoMap.keys m).Nodup) : (GoMap.keys (GoMap.delete m k)).Nodup := by
  rw [GoMap.keys_delete]
  exact h.filter _

theorem GoMap.nodup_keys_set {V : Type} (m : GoMap V) (k : GoString) (v : V)
    (h : (GoMap.keys m).Nodup) : (GoMap.keys (GoMap.set m k v)).Nodup := by
  rw [GoMap.keys_set]
  refine List.Nodup.append (h.filter _) (List.nodup_singleton k) ?_
  intro x hx hk
  simp only [List.mem_singleton] at hk
  simp [List.mem_filter, hk] at hx

/-! ### The loop of `main` -/

theorem mainLoop_cons (word : Word) (rest : List Word) (words : GoMap Word)
    (started : List Word) (jap0 : Japanese) (tl : List Japanese)
    (hj : word.Japanese = jap0 :: tl) (key : GoString)
    (hkey : canonicalKey word = some key) :
    mainLoop (word :: rest) words started
      = if (GoMap.get words key).isSome then mainLoop rest words started
        else mainLoop rest (GoMap.set words key word) (started ++ [word]) := by
  have hk : key = if jap0.Word ≠ [] then jap0.Word else jap0.Reading := by
    simp only [canonicalKey, hj, Option.some.injEq] at hkey
    rw [← hkey]
    by_cases h0 : jap0.Word = [] <;> simp [h0]
  simp only [mainLoop, hj]
  rw [← hk]

theorem GoMap.delete_of_get_none {V : Type} (m : GoMap V) (k : GoString)
    (h : GoMap.get m k = none) : GoMap.delete m k = m := by
  induction m with
  | nil => rfl
  | cons kv rest ih =>
    obtain ⟨k1, v⟩ := kv
    rw [GoMap.get_cons] at h
    by_cases h1 : k1 = k
    · rw [if_pos h1] at h
      exact absurd h (by simp)
    · rw [if_neg h1] at h
      rw [GoMap.delete_cons, if_neg h1, ih h]

theorem mainLoop_spec (arrivals : List Word) :
    ∀ (words : GoMap Word) (started : List Word),
      (∀ w ∈ arrivals, w.Japanese ≠ []) → (GoMap.keys words).Nodup →
      started = words.map Prod.snd →
      ∃ words1 started1, mainLoop arrivals words started = .ok (words1, started1)
        ∧ (GoMap.keys words1).Nodup
        ∧ started1 = words1.map Prod.snd
        ∧ ∀ k, GoMap.get words1 k =
            (GoMap.get words k).orElse fun _ =>
              arrivals.find? fun w => decide (canonicalKey w = some k) := by
  induction arrivals with
  | nil =>
    intro words started _ hnd hst
    refine ⟨words, started, rfl, hnd, hst, ?_⟩
    intro k
    cases GoMap.get words k <;> rfl
  | cons word rest ih =>
    intro words started hne hnd hst
    have hw : word.Japanese ≠ [] := hne word (List.mem_cons_self _ _)
    have hrest : ∀ w ∈ rest, w.Japanese ≠ [] := fun w hw => hne w (List.mem_cons_of_mem _ hw)
    obtain ⟨jap0, tl, hj⟩ := List.exists_cons_of_ne_nil hw
    obtain ⟨key, hkey⟩ : ∃ key, canonicalKey word = some key := by
      simp [canonicalKey, hj]
    rw [mainLoop_cons word rest words started jap0 tl hj key hkey]
    by_cases hin : (GoMap.get words key).isSome
    · obtain ⟨words1, started1, hrun, hnd1, hst1, hget⟩ := ih words started hrest hnd hst
      refine ⟨words1, started1, ?_, hnd1, hst1, ?_⟩
      · rw [if_pos hin]
        exact hrun
      · intro k
        rw [hget k, List.find?_cons]
        by_cases hk : key = k
        · rw [hk] at hin
          obtain ⟨v, hv⟩ := Option.isSome_iff_exists.mp hin
          simp [hv]
        · have : decide (canonicalKey word = some k) = false := by
            simp [hkey, hk]
          simp [this]
    · have hnone : GoMap.get words key = none := by simpa using hin
      have hst2 : started ++ [word] = (GoMap.set words key word).map Prod.snd := by
        rw [GoMap.set, GoMap.delete_of_get_none words key hnone, List.map_append, hst]
        rfl
      obtain ⟨words1, started1, hrun, hnd1, hst1, hget⟩ :=
        ih (GoMap.set words key word) (started ++ [word]) hrest
          (GoMap.nodup_keys_set _ _ _ hnd) hst2
      refine ⟨words1, started1, ?_, hnd1, hst1, ?_⟩
      · rw [if_neg hin]
        exact hrun
      · intro k
        rw [hget k, List.find?_cons]
        by_cases hk : key = k
        · have hnone : GoMap.get words k = none := by
            rw [hk] at hin
            simpa using hin
          have : decide (canonicalKey word = some k) = true := by
            simp [hkey, hk]
          rw [← hk, GoMap.get_set_self]
          rw [hk, hnone, this]
          rfl
        · have : decide (canonicalKey word = some k) = false := by
            simp [hkey, hk]
          rw [GoMap.get_set_ne _ _ _ _ (fun e => hk e.symm), this]

/-- C1. For every arrival sequence of entries that each have at least one pair, the loop of
`main` ends without a panic with a map `words` that binds every key at most once and in which
a key `k` is bound exactly to the first entry in arrival order whose canonical key is `k`
(unbound when no arrived entry has canonical key `k`), so a later entry with the same
canonical key never replaces the stored one; and the enriching goroutines are started for the
stored entries, once each, and for no other entry. -/
theorem main_words_first_entry_per_canonical_key (arrivals : List Word)
    (h : ∀ w ∈ arrivals, w.Japanese ≠ []) :
    ∃ words started, mainLoop arrivals [] [] = .ok (words, started)
      ∧ (GoMap.keys words).Nodup
      ∧ (∀ k, GoMap.get words k = arrivals.find? fun w => decide (canonicalKey w = some k))
      ∧ (∀ k, k ∈ GoMap.keys words ↔ ∃ w ∈ arrivals, canonicalKey w = some k)
      ∧ started = words.map Prod.snd := by
  obtain ⟨words, started, hrun, hnd, hst, hget⟩ :=
    mainLoop_spec arrivals [] [] h (by simp [GoMap.keys]) rfl
  have hget1 : ∀ k, GoMap.get words k
      = arrivals.find? fun w => decide (canonicalKey w = some k) := by
    intro k
    rw [hget k]
    simp [GoMap.get]
  refine ⟨words, started, hrun, hnd, hget1, ?_, hst⟩
  intro k
  rw [GoMap.mem_keys_iff, hget1 k, List.find?_isSome]
  simp

/-- C1, witness: a cat, a dog and a second cat arrive; the map binds the cat key to the first
cat. -/
theorem main_words_first_entry_per_canonical_key_witness :
    ∃ words started, mainLoop exampleArrivals [] [] = .ok (words, started)
      ∧ (GoMap.keys words).Nodup
      ∧ (∀ k, GoMap.get words k
          = exampleArrivals.find? fun w => decide (canonicalKey w = some k))
      ∧ (∀ k, k ∈ GoMap.keys words ↔ ∃ w ∈ exampleArrivals, canonicalKey w = some k)
      ∧ started = words.map Prod.snd :=
  main_words_first_entry_per_canonical_key exampleArrivals (by decide)

/-! ### Path escaping and cache file names -/

theorem upperhex_injective :
    ∀ i j : Fin 16, upperhex.getD i.val 0 = upperhex.getD j.val 0 → i = j := by
  decide

theorem upperhex_ne_slash : ∀ i : Fin 16, upperhex.getD i.val 0 ≠ 47 := by
  decide

theorem shouldEscape_percent : shouldEscape 37 = true := by decide

theorem shouldEscape_slash : shouldEscape 47 = true := by decide

theorem escape_cons (c : Byte) (s : GoString) :
    escape (c :: s)
      = if shouldEscape c then
          (37 : Byte) :: upperhex.getD (c.val / 16) 0 :: upperhex.getD (c.val % 16) 0 :: escape s
        else c :: escape s := rfl

theorem hex_pair_injective (c d : Byte)
    (h1 : upperhex.getD (c.val / 16) 0 = upperhex.getD (d.val / 16) 0)
    (h2 : upperhex.getD (c.val % 16) 0 = upperhex.getD (d.val % 16) 0) : c = d := by
  have hc : c.val / 16 < 16 := by have := c.isLt; omega
  have hd : d.val / 16 < 16 := by have := d.isLt; omega
  have e1 := upperhex_injective ⟨c.val / 16, hc⟩ ⟨d.val / 16, hd⟩ h1
  have e2 := upperhex_injective ⟨c.val % 16, Nat.mod_lt _ (by decide)⟩
    ⟨d.val % 16, Nat.mod_lt _ (by decide)⟩ h2
  simp only [Fin.mk.injEq] at e1 e2
  apply Fin.ext
  omega

theorem escape_injective (a : GoString) : ∀ b : GoString, escape a = escape b → a = b := by
  induction a with
  | nil =>
    intro b h
    cases b with
    | nil => rfl
    | cons d t =>
      rw [escape_cons] at h
      split_ifs at h <;> simp [escape] at h
  | cons c s ih =>
    intro b h
    cases b with
    | nil =>
      rw [escape_cons] at h
      split_ifs at h <;> simp [escape] at h
    | cons d t =>
      rw [escape_cons, escape_cons] at h
      split_ifs at h with hc hd hd
      · simp only [List.cons.injEq, true_and] at h
        obtain ⟨h1, h2, h3⟩ := h
        rw [hex_pair_injective c d h1 h2, ih t h3]
      · simp only [List.cons.injEq] at h
        rw [← h.1, shouldEscape_percent] at hd
        exact absurd rfl hd
      · simp only [List.cons.injEq] at h
        rw [h.1, shouldEscape_percent] at hc
        exact absurd rfl hc
      · simp only [List.cons.injEq] at h
        rw [h.1, ih t h.2]

theorem slash_not_mem_escape (s : GoString) : (47 : Byte) ∉ escape s := by
  induction s with
  | nil => simp [escape]
  | cons c s ih =>
    have hc : c.val / 16 < 16 := by have := c.isLt; omega
    have h1 := upperhex_ne_slash ⟨c.val / 16, hc⟩
    have h2 := upperhex_ne_slash ⟨c.val % 16, Nat.mod_lt _ (by decide)⟩
    rw [escape_cons]
    split_ifs with h
    · simp only [List.mem_cons, not_or]
      exact ⟨by decide, fun e => h1 e.symm, fun e => h2 e.symm, ih⟩
    · simp only [List.mem_cons, not_or]
      refine ⟨?_, ih⟩
      intro e
      rw [← e, shouldEscape_slash] at h
      exact h rfl

theorem takeWhile_ne_of_not_mem (e : GoString) (h : (47 : Byte) ∉ e) :
    e.takeWhile (fun x => decide (x ≠ 47)) = e := by
  rw [List.takeWhile_eq_self_iff]
  intro x hx
  simp only [ne_eq, decide_not, Bool.not_eq_true', decide_eq_false_iff_not]
  intro e1
  exact h (e1 ▸ hx)

theorem dropWhile_ne_of_not_mem (e : GoString) (h : (47 : Byte) ∉ e) :
    e.dropWhile (fun x => decide (x ≠ 47)) = [] := by
  rw [List.dropWhile_eq_nil_iff]
  intro x hx
  simp only [ne_eq, decide_not, Bool.not_eq_true', decide_eq_false_iff_not]
  intro e1
  exact h (e1 ▸ hx)

/-- A name without slash other than the empty name, `.` and `..` is joined to the directory
`cache` as it is. -/
theorem join_cache (e : GoString) (h0 : e ≠ []) (hs : (47 : Byte) ∉ e) (h1 : e ≠ [46])
    (h2 : e ≠ [46, 46]) : join [lit "cache", e] = lit "cache/" ++ e := by
  have hl : lit "cache" = [99, 97, 99, 104, 101] := by decide
  have hl2 : lit "cache/" = [99, 97, 99, 104, 101, 47] := by decide
  rw [hl, hl2]
  obtain ⟨c, t, rfl⟩ := List.exists_cons_of_ne_nil h0
  have hc : c ≠ 47 := fun e1 => hs (e1 ▸ List.mem_cons_self _ _)
  have ht : (47 : Byte) ∉ t := fun hm => hs (List.mem_cons_of_mem _ hm)
  have hdot : ¬ (c = 46 ∧ (t = [] ∨ t.head? = some 47)) := by
    rintro ⟨rfl, ht1 | ht1⟩
    · exact h1 (by rw [ht1])
    · cases t with
      | nil => simp at ht1
      | cons d u =>
        simp only [List.head?_cons, Option.some.injEq] at ht1
        exact ht (ht1 ▸ List.mem_cons_self _ _)
  have hdotdot : ¬ (c = 46 ∧ t.head? = some 46 ∧ (t.tail = [] ∨ t.tail.head? = some 47)) := by
    rintro ⟨rfl, ht1, ht2⟩
    cases t with
    | nil => simp at ht1
    | cons d u =>
      simp only [List.head?_cons, Option.some.injEq] at ht1
      subst ht1
      rcases ht2 with ht2 | ht2
      · simp only [List.tail_cons] at ht2
        exact h2 (by rw [ht2])
      · cases u with
        | nil => simp at ht2
        | cons x y =>
          simp only [List.tail_cons, List.head?_cons, Option.some.injEq] at ht2
          exact ht (ht2 ▸ List.mem_cons_of_mem _ (List.mem_cons_self _ _))
  have htw : (c :: t).takeWhile (fun x => decide (x ≠ 47)) = c :: t :=
    takeWhile_ne_of_not_mem _ hs
  have hdw : (c :: t).dropWhile (fun x => decide (x ≠ 47)) = [] :=
    dropWhile_ne_of_not_mem _ hs
  have step3 : ∀ n, cleanLoop false (n + 1) (c :: t) [99, 97, 99, 104, 101] 0
      = [99, 97, 99, 104, 101, 47] ++ c :: t := by
    intro n
    rw [cleanLoop]
    simp only [hc, if_false, hdot, hdotdot]
    rw [htw, hdw]
    cases n <;> simp [cleanLoop]
  have step2 : ∀ n, cleanLoop false (n + 2) (47 :: c :: t) [99, 97, 99, 104, 101] 0
      = [99, 97, 99, 104, 101, 47] ++ c :: t := by
    intro n
    rw [cleanLoop]
    simp only [if_true]
    exact step3 n
  have htw1 : ([99, 97, 99, 104, 101, 47] ++ c :: t : GoString).takeWhile
      (fun x => decide (x ≠ 47)) = [99, 97, 99, 104, 101] := by
    simp [List.takeWhile]
  have hdw1 : ([99, 97, 99, 104, 101, 47] ++ c :: t : GoString).dropWhile
      (fun x => decide (x ≠ 47)) = 47 :: c :: t := by
    simp [List.dropWhile]
  have step1 : ∀ n, cleanLoop false (n + 3) ([99, 97, 99, 104, 101, 47] ++ c :: t) [] 0
      = [99, 97, 99, 104, 101, 47] ++ c :: t := by
    intro n
    have hshape : ([99, 97, 99, 104, 101, 47] ++ c :: t : GoString)
        = 99 :: ([97, 99, 104, 101, 47] ++ c :: t) := rfl
    have htw2 := htw1
    have hdw2 := hdw1
    rw [hshape] at htw2 hdw2 ⊢
    rw [cleanLoop]
    simp only
    rw [htw2, hdw2]
    have h99 : ¬ ((99 : Byte) = 47) := by decide
    have h99b : ¬ ((99 : Byte) = 46) := by decide
    simp only [h99, h99b, false_and, if_false, List.length_nil, ne_eq, not_true_eq_false,
      and_false, or_false, List.nil_append]
    exact step2 n
  have hjoin : join [[99, 97, 99, 104, 101], c :: t]
      = clean ([99, 97, 99, 104, 101, 47] ++ c :: t) := by
    simp [join, List.intercalate]
  rw [hjoin]
  have hlen : ([99, 97, 99, 104, 101, 47] ++ c :: t : GoString).length = t.length + 4 + 3 := by
    simp
  have hclean : clean ([99, 97, 99, 104, 101, 47] ++ c :: t)
      = (if cleanLoop false (([99, 97, 99, 104, 101, 47] ++ c :: t : GoString).length)
            ([99, 97, 99, 104, 101, 47] ++ c :: t) [] 0 = [] then [46]
          else cleanLoop false (([99, 97, 99, 104, 101, 47] ++ c :: t : GoString).length)
            ([99, 97, 99, 104, 101, 47] ++ c :: t) [] 0) := by
    rfl
  rw [hclean, hlen, step1]
  simp

theorem escape_eq_nil (a : GoString) (h : escape a = []) : a = [] :=
  escape_injective a [] h

theorem escape_eq_dot (a : GoString) (h : escape a = [46]) : a = [46] :=
  escape_injective a [46] (h.trans (by decide))

theorem escape_eq_dotdot (a : GoString) (h : escape a = [46, 46]) : a = [46, 46] :=
  escape_injective a [46, 46] (h.trans (by decide))

/-- Addresses whose escaped form `filepath.Join` does not keep as a file name of its own. -/
theorem cacheFilename_regular (a : GoString) (h0 : a ≠ []) (h1 : a ≠ [46])
    (h2 : a ≠ [46, 46]) : cacheFilename a = lit "cache/" ++ escape a :=
  join_cache (escape a) (fun h => h0 (escape_eq_nil a h)) (slash_not_mem_escape a)
    (fun h => h1 (escape_eq_dot a h)) (fun h => h2 (escape_eq_dotdot a h))

theorem cacheFilename_nil : cacheFilename [] = [99, 97, 99, 104, 101] := by decide

theorem cacheFilename_dot : cacheFilename [46] = [99, 97, 99, 104, 101] := by decide

theorem cacheFilename_dotdot : cacheFilename [46, 46] = [46] := by decide

theorem lit_cache_slash : lit "cache/" = [99, 97, 99, 104, 101, 47] := by decide

theorem cacheFilename_regular_length (a : GoString) (h0 : a ≠ []) (h1 : a ≠ [46])
    (h2 : a ≠ [46, 46]) : 6 ≤ (cacheFilename a).length := by
  rw [cacheFilename_regular a h0 h1 h2, lit_cache_slash]
  simp

theorem cacheFilename_eq_cases (a b : GoString) (h : cacheFilename a = cacheFilename b) :
    a = b ∨ (a = [] ∧ b = [46]) ∨ (a = [46] ∧ b = []) := by
  by_cases a0 : a = []
  · by_cases b0 : b = []
    · exact Or.inl (a0.trans b0.symm)
    · by_cases b1 : b = [46]
      · exact Or.inr (Or.inl ⟨a0, b1⟩)
      · by_cases b2 : b = [46, 46]
        · rw [a0, b2, cacheFilename_nil, cacheFilename_dotdot] at h
          exact absurd h (by decide)
        · have hl := cacheFilename_regular_length b b0 b1 b2
          rw [← h, a0, cacheFilename_nil] at hl
          simp at hl
  · by_cases a1 : a = [46]
    · by_cases b0 : b = []
      · exact Or.inr (Or.inr ⟨a1, b0⟩)
      · by_cases b1 : b = [46]
        · exact Or.inl (a1.trans b1.symm)
        · by_cases b2 : b = [46, 46]
          · rw [a1, b2, cacheFilename_dot, cacheFilename_dotdot] at h
            exact absurd h (by decide)
          · have hl := cacheFilename_regular_length b b0 b1 b2
            rw [← h, a1, cacheFilename_dot] at hl
            simp at hl
    · by_cases a2 : a = [46, 46]
      · by_cases b0 : b = []
        · rw [a2, b0, cacheFilename_nil, cacheFilename_dotdot] at h
          exact absurd h (by decide)
        · by_cases b1 : b = [46]
          · rw [a2, b1, cacheFilename_dot, cacheFilename_dotdot] at h
            exact absurd h (by decide)
          · by_cases b2 : b = [46, 46]
            · exact Or.inl (a2.trans b2.symm)
            · have hl := cacheFilename_regular_length b b0 b1 b2
              rw [← h, a2, cacheFilename_dotdot] at hl
              simp at hl
      · have hla := cacheFilename_regular_length a a0 a1 a2
        by_cases b0 : b = []
        · rw [h, b0, cacheFilename_nil] at hla
          simp at hla
        · by_cases b1 : b = [46]
          · rw [h, b1, cacheFilename_dot] at hla
            simp at hla
          · by_cases b2 : b = [46, 46]
            · rw [h, b2, cacheFilename_dotdot] at hla
              simp at hla
            · rw [cacheFilename_regular a a0 a1 a2, cacheFilename_regular b b0 b1 b2] at h
              exact Or.inl (escape_injective a b (List.append_cancel_left h))

/-! ### The fetch cache `get` -/

set_option maxRecDepth 100000 in
theorem toLowerByte_h : ∀ c : Byte, toLowerByte c = 104 → c = 104 ∨ c = 72 := by
  decide

theorem hasHTTPScheme_head (a : GoString) (h : hasHTTPScheme a = true) :
    ∃ c rest, a = c :: rest ∧ (c = 104 ∨ c = 72) := by
  have h5 : lit "http:" = [104, 116, 116, 112, 58] := by decide
  have h6 : lit "https:" = [104, 116, 116, 112, 115, 58] := by decide
  cases a with
  | nil =>
    rw [hasHTTPScheme, h5, h6] at h
    simp at h
  | cons c rest =>
    refine ⟨c, rest, rfl, ?_⟩
    apply toLowerByte_h
    rw [hasHTTPScheme, h5, h6] at h
    simp only [Bool.or_eq_true, decide_eq_true_eq] at h
    rcases h with h | h
    · simp only [List.take_succ_cons, List.map_cons, List.cons.injEq] at h
      exact h.1
    · simp only [List.take_succ_cons, List.map_cons, List.cons.injEq] at h
      exact h.1

theorem tempName_eq (suffix : List (Fin 10)) :
    tempName suffix
      = lit "cache/" ++ (lit "tmp_" ++ suffix.map fun d => Fin.ofNat (48 + d.val)) := by
  have h4 : lit "tmp_" = [116, 109, 112, 95] := by decide
  rw [tempName, h4]
  apply join_cache
  · simp
  · simp only [List.cons_append, List.nil_append, List.mem_cons, List.mem_map, not_or,
      not_exists, not_and]
    refine ⟨by decide, by decide, by decide, by decide, ?_⟩
    intro d _
    have hd : ∀ d : Fin 10, ¬ (Fin.ofNat (48 + d.val) : Byte) = 47 := by decide
    exact hd d
  · simp
  · simp

/-- The temporary file of a call that reached the network is not the cache file of its
address: the address starts with the scheme, the temporary name with `tmp_`. -/
theorem tempName_ne_cacheFilename (suffix : List (Fin 10)) (a : GoString)
    (h : hasHTTPScheme a = true) : tempName suffix ≠ cacheFilename a := by
  obtain ⟨c, rest, rfl, hc⟩ := hasHTTPScheme_head a h
  have hne : ¬ shouldEscape c = true := by
    rcases hc with rfl | rfl <;> decide
  have hesc : escape (c :: rest) = c :: escape rest := by
    rw [escape_cons, if_neg hne]
  have h1 : (c :: rest) ≠ [46] := by
    rintro e
    simp only [List.cons.injEq] at e
    rcases hc with rfl | rfl
    · exact absurd e.1 (by decide)
    · exact absurd e.1 (by decide)
  have h2 : (c :: rest) ≠ [46, 46] := by
    rintro e
    simp only [List.cons.injEq] at e
    rcases hc with rfl | rfl
    · exact absurd e.1 (by decide)
    · exact absurd e.1 (by decide)
  have h4 : lit "tmp_" = [116, 109, 112, 95] := by decide
  rw [tempName_eq, cacheFilename_regular _ (List.cons_ne_nil _ _) h1 h2, hesc, h4]
  intro e
  have e1 := List.append_cancel_left e
  simp only [List.cons_append, List.cons.injEq] at e1
  rcases hc with rfl | rfl
  · exact absurd e1.1 (by decide)
  · exact absurd e1.1 (by decide)

theorem tempFile_some (env : Env) (files : Files) (tmp : GoString)
    (h : tempFile env files = some tmp) :
    GoMap.get files tmp = none ∧ ∃ suffix, tmp = tempName suffix := by
  rw [tempFile] at h
  have h1 := List.find?_some h
  have h2 := List.mem_of_find?_eq_some h
  simp only [List.mem_map] at h2
  obtain ⟨suffix, _, hs⟩ := h2
  refine ⟨?_, suffix, hs.symm⟩
  simpa using h1

theorem httpGet_some (env : Env) (a : GoString) (res : Response)
    (h : httpGet env a = some res) : hasHTTPScheme a = true := by
  rw [httpGet] at h
  by_cases hs : hasHTTPScheme a = true
  · exact hs
  · rw [if_neg hs] at h
    exact absurd h (by simp)

theorem get_rename_fresh (files : Files) (tmp fn content : GoString) (h : tmp ≠ fn) :
    GoMap.get (rename (GoMap.set files tmp content) tmp fn) fn = some content := by
  rw [rename, if_neg h, GoMap.get_set_self]
  exact GoMap.get_set_self _ _ _

theorem hasHTTPScheme_regular (a : GoString) (h : hasHTTPScheme a = true) :
    a ≠ [] ∧ a ≠ [46] ∧ a ≠ [46, 46] := by
  obtain ⟨c, rest, rfl, hc⟩ := hasHTTPScheme_head a h
  refine ⟨List.cons_ne_nil _ _, ?_, ?_⟩
  · intro e
    simp only [List.cons.injEq] at e
    rcases hc with rfl | rfl
    · exact absurd e.1 (by decide)
    · exact absurd e.1 (by decide)
  · intro e
    simp only [List.cons.injEq] at e
    rcases hc with rfl | rfl
    · exact absurd e.1 (by decide)
    · exact absurd e.1 (by decide)

/-- The files that a call of `get` leaves when it missed the cache, got an answer and created
its temporary file: the temporary file is removed from one of three states of the disk. -/
theorem get_files_on_miss (env : Env) (w : World) (a : GoString) (res : Response)
    (tmp : GoString) (hc : GoMap.get w.files (cacheFilename a) = none)
    (hh : httpGet env a = some res) (ht : tempFile env w.files = some tmp) :
    ∃ disk : Files, (get env w a).2.files = GoMap.delete disk tmp
      ∧ (disk = GoMap.set w.files tmp []
        ∨ (∃ content, disk = GoMap.set (GoMap.set w.files tmp []) tmp content)
        ∨ disk = rename (GoMap.set (GoMap.set w.files tmp []) tmp res.Body) tmp
            (cacheFilename a)) := by
  unfold get
  simp only [hc, hh, ht]
  by_cases hst : res.StatusCode ≠ statusOK
  · rw [if_pos hst]
    exact ⟨_, rfl, Or.inl rfl⟩
  · rw [if_neg hst]
    cases hcp : env.copyFails with
    | some n => exact ⟨_, rfl, Or.inr (Or.inl ⟨_, rfl⟩)⟩
    | none =>
      simp only
      cases hr : env.renameOk with
      | false => exact ⟨_, rfl, Or.inr (Or.inl ⟨_, rfl⟩)⟩
      | true =>
        simp only [Bool.not_true, Bool.false_eq_true, if_false]
        cases ho : env.openOk with
        | false => exact ⟨_, rfl, Or.inr (Or.inr rfl)⟩
        | true => exact ⟨_, rfl, Or.inr (Or.inr rfl)⟩

/-- A call of `get` creates no file but the cache file of its address, and that only for an
address with the scheme `http` or `https`. -/
theorem get_writes_only_own_record (env : Env) (w : World) (a p c : GoString)
    (hbefore : GoMap.get w.files p = none)
    (hafter : GoMap.get (get env w a).2.files p = some c) :
    p = cacheFilename a ∧ hasHTTPScheme a = true := by
  have hunchanged : (get env w a).2.files = w.files → False := by
    intro e
    rw [e, hbefore] at hafter
    exact absurd hafter (by simp)
  cases hc : GoMap.get w.files (cacheFilename a) with
  | some content =>
    exfalso
    apply hunchanged
    unfold get
    simp only [hc]
  | none =>
    cases hh : httpGet env a with
    | none =>
      exfalso
      apply hunchanged
      unfold get
      simp only [hc, hh]
    | some res =>
      have hsch := httpGet_some env a res hh
      cases ht : tempFile env w.files with
      | none =>
        exfalso
        apply hunchanged
        unfold get
        simp only [hc, hh, ht]
      | some tmp =>
        obtain ⟨hfresh, suffix, hsuf⟩ := tempFile_some env w.files tmp ht
        have hne : tmp ≠ cacheFilename a := by
          rw [hsuf]
          exact tempName_ne_cacheFilename suffix a hsch
        obtain ⟨disk, hfiles, hdisk⟩ := get_files_on_miss env w a res tmp hc hh ht
        rw [hfiles] at hafter
        by_cases hp : p = tmp
        · rw [hp, GoMap.get_delete_self] at hafter
          exact absurd hafter (by simp)
        · rw [GoMap.get_delete_ne _ _ _ hp] at hafter
          rcases hdisk with rfl | ⟨content, rfl⟩ | rfl
          · rw [GoMap.get_set_ne _ _ _ _ hp, hbefore] at hafter
            exact absurd hafter (by simp)
          · rw [GoMap.get_set_ne _ _ _ _ hp, GoMap.get_set_ne _ _ _ _ hp, hbefore] at hafter
            exact absurd hafter (by simp)
          · by_cases hfn : p = cacheFilename a
            · exact ⟨hfn, hsch⟩
            · rw [rename, if_neg hne, GoMap.get_set_self] at hafter
              simp only at hafter
              rw [GoMap.get_set_ne _ _ _ _ hfn, GoMap.get_delete_ne _ _ _ hp,
                GoMap.get_set_ne _ _ _ _ hp, GoMap.get_set_ne _ _ _ _ hp, hbefore] at hafter
              exact absurd hafter (by simp)

/-- C9, as the code has it. Two distinct addresses have distinct cache file names, except the
empty address and the address `.` taken together; and a file that a call of `get` for one
address creates is the cache file of that address and of no other address, so a record
written for one address is never returned for another. -/
theorem cacheFilename_injective_except_empty_and_dot (a b : GoString) (hab : a ≠ b) :
    (¬ ((a = [] ∧ b = [46]) ∨ (a = [46] ∧ b = [])) → cacheFilename a ≠ cacheFilename b)
      ∧ ∀ (env : Env) (w : World) (p c : GoString),
          GoMap.get w.files p = none → GoMap.get (get env w a).2.files p = some c →
          p = cacheFilename a ∧ p ≠ cacheFilename b := by
  constructor
  · intro hex h
    rcases cacheFilename_eq_cases a b h with e | e | e
    · exact hab e
    · exact hex (Or.inl e)
    · exact hex (Or.inr e)
  · intro env w p c hbefore hafter
    obtain ⟨hp, hsch⟩ := get_writes_only_own_record env w a p c hbefore hafter
    refine ⟨hp, ?_⟩
    rw [hp]
    intro h
    obtain ⟨h0, h1, _⟩ := hasHTTPScheme_regular a hsch
    rcases cacheFilename_eq_cases a b h with e | e | e
    · exact hab e
    · exact h0 e.1
    · exact h1 e.1

/-- C9, witness: the word pages of two words have distinct cache file names. -/
theorem cacheFilename_injective_except_empty_and_dot_witness :
    cacheFilename (urlWordPage (lit "a")) ≠ cacheFilename (urlWordPage (lit "b")) :=
  (cacheFilename_injective_except_empty_and_dot (urlWordPage (lit "a"))
    (urlWordPage (lit "b")) (by decide)).1 (by decide)

/-- C9, counterexample: the empty address and the address `.` are distinct and have the same
cache file name, the cache directory itself. -/
theorem cacheFilename_empty_dot_collide :
    ([] : GoString) ≠ [46] ∧ cacheFilename [] = cacheFilename [46]
      ∧ cacheFilename [46] = lit "cache" := by
  decide

/-- A call of `get` that returns status OK leaves the returned bytes in the cache file; on
a cache miss they are the body of an OK answer of the server, fetched by one request. -/
theorem get_ok_cases (env : Env) (w : World) (a body : GoString)
    (hok : (get env w a).1 = ⟨statusOK, some body, false⟩) :
    GoMap.get (get env w a).2.files (cacheFilename a) = some body
      ∧ (GoMap.get w.files (cacheFilename a) = none →
          env.response = some ⟨statusOK, body⟩
            ∧ (get env w a).2.requests = w.requests + 1) := by
  unfold get at hok ⊢
  simp only at hok ⊢
  cases hc : GoMap.get w.files (cacheFilename a) with
  | some content =>
    rw [hc] at hok
    simp only [GetResult.mk.injEq, Option.some.injEq, and_true, true_and] at hok
    simp only [hc]
    rw [hok]
    exact ⟨rfl, fun h => absurd h (by simp)⟩
  | none =>
    rw [hc] at hok
    simp only [hc]
    simp only at hok
    cases hh : httpGet env a with
    | none =>
      rw [hh] at hok
      exact absurd hok (by simp [statusOK])
    | some res =>
      have hsch := httpGet_some env a res hh
      have hresp : env.response = some res := by
        rw [httpGet, if_pos hsch] at hh
        exact hh
      rw [hh] at hok
      simp only at hok ⊢
      cases ht : tempFile env w.files with
      | none =>
        rw [ht] at hok
        exact absurd hok (by simp [statusOK])
      | some tmp =>
        obtain ⟨_, suffix, hsuf⟩ := tempFile_some env w.files tmp ht
        have hne : tmp ≠ cacheFilename a := by
          rw [hsuf]
          exact tempName_ne_cacheFilename suffix a hsch
        rw [ht] at hok
        simp only at hok ⊢
        by_cases hst : res.StatusCode ≠ statusOK
        · rw [if_pos hst] at hok
          simp only [GetResult.mk.injEq] at hok
          exact absurd hok.1 hst
        · rw [if_neg hst] at hok ⊢
          cases hcp : env.copyFails with
          | some n =>
            rw [hcp] at hok
            exact absurd hok (by simp [statusOK])
          | none =>
            rw [hcp] at hok
            simp only at hok ⊢
            cases hr : env.renameOk with
            | false =>
              rw [hr] at hok
              exact absurd hok (by simp [statusOK])
            | true =>
              rw [hr] at hok
              simp only [Bool.not_true, Bool.false_eq_true, if_false] at hok ⊢
              cases ho : env.openOk with
              | false =>
                rw [ho] at hok
                exact absurd hok (by simp [statusOK])
              | true =>
                rw [ho] at hok
                simp only [Bool.not_true, Bool.false_eq_true, if_false] at hok ⊢
                simp only [GetResult.mk.injEq, and_true, true_and] at hok
                rw [GoMap.get_delete_ne _ _ _ (fun e => hne e.symm)]
                refine ⟨hok, fun _ => ⟨?_, trivial⟩⟩
                rw [get_rename_fresh _ _ _ _ hne] at hok
                simp only [Option.some.injEq] at hok
                rw [hresp, ← hok]
                have hs : res.StatusCode = statusOK := not_not.mp hst
                rw [← hs]

/-- C3. When a call `get(address)` returns status OK with a body, a call `get(address)`
issued afterwards returns status OK with the same bytes, whatever the outside does, and leaves
the world as it is, so the request counter is unchanged. A first call that missed the cache
returns status OK exactly on the path where the server answered OK, the body was written and
renamed to the cache file, and the bytes are the body of that answer. -/
theorem get_second_call_served_from_cache (env1 env2 : Env) (w : World)
    (address body : GoString)
    (hok : (get env1 w address).1 = ⟨statusOK, some body, false⟩) :
    get env2 (get env1 w address).2 address
        = (⟨statusOK, some body, false⟩, (get env1 w address).2)
      ∧ (get env2 (get env1 w address).2 address).2.requests
        = (get env1 w address).2.requests
      ∧ (GoMap.get w.files (cacheFilename address) = none →
          env1.response = some ⟨statusOK, body⟩
            ∧ (get env1 w address).2.requests = w.requests + 1) := by
  obtain ⟨hfile, hmiss⟩ := get_ok_cases env1 w address body hok
  have hsecond : get env2 (get env1 w address).2 address
      = (⟨statusOK, some body, false⟩, (get env1 w address).2) := by
    generalize (get env1 w address).2 = w1 at hfile ⊢
    unfold get
    simp only [hfile]
  exact ⟨hsecond, by rw [hsecond], hmiss⟩

/-- C4. On a cache miss, when the server answers with a status that is not OK, or copying the
body to the temporary file fails, then after `get` returns there is no file under the cache
file name of the address, the temporary file that the call created is gone, and every path on
disk holds what it held before the call. -/
theorem get_failure_leaves_no_cache_file (env : Env) (w : World) (address : GoString)
    (res : Response)
    (hmiss : GoMap.get w.files (cacheFilename address) = none)
    (hres : httpGet env address = some res)
    (hfail : res.StatusCode ≠ statusOK ∨ env.copyFails.isSome = true) :
    GoMap.get (get env w address).2.files (cacheFilename address) = none
      ∧ (∀ tmp, tempFile env w.files = some tmp →
          GoMap.get (get env w address).2.files tmp = none)
      ∧ (∀ p, GoMap.get (get env w address).2.files p = GoMap.get w.files p)
      ∧ (get env w address).1.status ≠ statusOK := by
  have key : (∀ p, GoMap.get (get env w address).2.files p = GoMap.get w.files p)
      ∧ (get env w address).1.status ≠ statusOK := by
    unfold get
    simp only [hmiss, hres]
    cases ht : tempFile env w.files with
    | none => exact ⟨fun p => rfl, by simp [statusOK]⟩
    | some tmp =>
      obtain ⟨hfresh, _⟩ := tempFile_some env w.files tmp ht
      have hdel : ∀ (c1 c2 : GoString) (p : GoString),
          GoMap.get (GoMap.delete (GoMap.set (GoMap.set w.files tmp c1) tmp c2) tmp) p
            = GoMap.get w.files p := by
        intro c1 c2 p
        by_cases hp : p = tmp
        · rw [hp, GoMap.get_delete_self, hfresh]
        · rw [GoMap.get_delete_ne _ _ _ hp, GoMap.get_set_ne _ _ _ _ hp,
            GoMap.get_set_ne _ _ _ _ hp]
      have hdel1 : ∀ (c1 : GoString) (p : GoString),
          GoMap.get (GoMap.delete (GoMap.set w.files tmp c1) tmp) p = GoMap.get w.files p := by
        intro c1 p
        by_cases hp : p = tmp
        · rw [hp, GoMap.get_delete_self, hfresh]
        · rw [GoMap.get_delete_ne _ _ _ hp, GoMap.get_set_ne _ _ _ _ hp]
      simp only
      by_cases hst : res.StatusCode ≠ statusOK
      · rw [if_pos hst]
        exact ⟨fun p => hdel1 _ p, hst⟩
      · rw [if_neg hst]
        rcases hfail with hf | hf
        · exact absurd hf hst
        · obtain ⟨n, hn⟩ := Option.isSome_iff_exists.mp hf
          simp only [hn]
          exact ⟨fun p => hdel _ _ p, by simp [statusOK]⟩
  refine ⟨?_, ?_, key.1, key.2⟩
  · rw [key.1, hmiss]
  · intro tmp ht
    rw [key.1]
    exact (tempFile_some env w.files tmp ht).1

/-- C3, witness: a word page fetched on an empty disk is served from the cache afterwards,
even with the network down. -/
theorem get_second_call_served_from_cache_witness :
    (get exampleEnvOK exampleWorld (urlWordPage (lit "a"))).1
        = ⟨statusOK, some (lit "page"), false⟩
      ∧ get exampleEnvDown (get exampleEnvOK exampleWorld (urlWordPage (lit "a"))).2
          (urlWordPage (lit "a"))
        = (⟨statusOK, some (lit "page"), false⟩,
            (get exampleEnvOK exampleWorld (urlWordPage (lit "a"))).2) :=
  ⟨by decide,
    (get_second_call_served_from_cache exampleEnvOK exampleEnvDown exampleWorld
      (urlWordPage (lit "a")) (lit "page") (by decide)).1⟩

/-- C4, witness: on an empty disk neither a status 404 nor a copy that fails after two bytes
leaves a file under the cache file name. -/
theorem get_failure_leaves_no_cache_file_witness :
    GoMap.get (get exampleEnvNotFound exampleWorld (urlWordPage (lit "a"))).2.files
        (cacheFilename (urlWordPage (lit "a"))) = none
      ∧ GoMap.get (get exampleEnvCopyFails exampleWorld (urlWordPage (lit "a"))).2.files
        (cacheFilename (urlWordPage (lit "a"))) = none :=
  ⟨(get_failure_leaves_no_cache_file exampleEnvNotFound exampleWorld (urlWordPage (lit "a"))
      ⟨404, lit "no"⟩ (by decide) (by decide) (by decide)).1,
    (get_failure_leaves_no_cache_file exampleEnvCopyFails exampleWorld (urlWordPage (lit "a"))
      ⟨200, lit "page"⟩ (by decide) (by decide) (by decide)).1⟩

/-! ### Candidate probing -/

theorem findAndParseWordPageLoop_eq_probeInOrder {σ : Type}
    (probe : GoString → Run σ Page) (readings : List GoString) :
    ∀ (tried : GoMap Bool) (s : σ),
      findAndParseWordPageLoop probe readings tried s
        = probeInOrder probe
            ((firstOccurrences (readings.filter fun id => decide (id ≠ []))).filter
              fun id => decide (id ∉ GoMap.keys tried)) s := by
  induction readings with
  | nil =>
    intro tried s
    rfl
  | cons r rest ih =>
    intro tried s
    rw [findAndParseWordPageLoop]
    by_cases hr : r = []
    · rw [if_pos (Or.inr hr), ih]
      simp [List.filter_cons, hr]
    · have hfo : firstOccurrences ((r :: rest).filter fun id => decide (id ≠ []))
          = r :: (firstOccurrences (rest.filter fun id => decide (id ≠ []))).filter
              fun y => decide (y ≠ r) := by
        simp [List.filter_cons, hr, firstOccurrences]
      rw [hfo, List.filter_cons, List.filter_filter]
      by_cases ht : (GoMap.get tried r).isSome = true
      · have hmem : r ∈ GoMap.keys tried := (GoMap.mem_keys_iff tried r).mpr ht
        rw [if_pos (Or.inl ht), ih]
        simp only [hmem, not_true_eq_false, decide_False, Bool.false_eq_true, if_false]
        congr 1
        apply List.filter_congr
        intro y _
        by_cases hy : y = r
        · simp [hy, hmem]
        · simp [hy]
      · have hmem : r ∉ GoMap.keys tried := fun h => ht ((GoMap.mem_keys_iff tried r).mp h)
        have hcond : ¬ ((GoMap.get tried r).isSome = true ∨ r = []) := by
          rintro (h | h)
          · exact ht h
          · exact hr h
        rw [if_neg hcond]
        simp only [hmem, not_false_eq_true, decide_True, if_true]
        rw [probeInOrder]
        cases hp : probe (urlWordPage r) s with
        | error e => rfl
        | ok res =>
          obtain ⟨⟨audios, collocations, ok⟩, s1⟩ := res
          simp only
          cases ok with
          | true => rfl
          | false =>
            simp only [Bool.false_eq_true, if_false]
            rw [ih]
            congr 1
            apply List.filter_congr
            intro y _
            rw [GoMap.keys_set]
            by_cases hy : y = r
            · simp [hy]
            · simp [hy, List.mem_filter]

/-- Go `findAndParseWordPage` probes the candidate identifiers of the specification in
order, for every probe function, with state or panics. -/
theorem findAndParseWordPage_eq_probeInOrder {σ : Type} (probe : GoString → Run σ Page)
    (word : Word) (s : σ) :
    findAndParseWordPage probe word s = probeInOrder probe (candidates word) s := by
  rw [findAndParseWordPage, findAndParseWordPageLoop_eq_probeInOrder, candidates]
  congr 1
  simp [GoMap.keys]

theorem probeInOrder_recordingProbe
    (pages : GoString → Option (Option Audios × Option Collocations))
    (ids : List GoString) :
    ∀ log : List GoString,
      probeInOrder (recordingProbe pages) ids log
        = .ok ((ids.findSome? fun id =>
                (pages (urlWordPage id)).map fun p => (id, p.1, p.2, true)).getD
                  ([], none, none, false),
              log ++ ((ids.takeWhile fun id => (pages (urlWordPage id)).isNone)
                ++ (ids.find? fun id => (pages (urlWordPage id)).isSome).toList).map
                  urlWordPage) := by
  induction ids with
  | nil =>
    intro log
    simp [probeInOrder]
  | cons id rest ih =>
    intro log
    rw [probeInOrder]
    cases hp : pages (urlWordPage id) with
    | none =>
      simp only [recordingProbe, hp, Bool.false_eq_true, if_false]
      rw [ih]
      simp [List.findSome?_cons, List.takeWhile_cons, List.find?_cons, hp]
    | some p =>
      obtain ⟨audios, collocations⟩ := p
      simp [recordingProbe, hp, List.findSome?_cons, List.takeWhile_cons, List.find?_cons]

/-- C2. For every entry and every table of existing detail pages, `findAndParseWordPage` run
on the recording test double returns without a panic; it returns the first candidate
identifier (written form then reading of each pair in order, without the empty strings and
without repetitions) whose page exists, with the audios and collocations of that page and
`true`, or the empty identifier, nil, nil and `false` when no candidate has a page; and the
log of the addresses probed is the run of candidates without a page that precedes the first
candidate with a page, followed by that candidate: nothing after it is probed. -/
theorem findAndParseWordPage_probes_candidates_in_order
    (pages : GoString → Option (Option Audios × Option Collocations)) (word : Word) :
    findAndParseWordPage (recordingProbe pages) word []
      = .ok (((candidates word).findSome? fun id =>
                (pages (urlWordPage id)).map fun p => (id, p.1, p.2, true)).getD
                  ([], none, none, false),
              (((candidates word).takeWhile fun id => (pages (urlWordPage id)).isNone)
                ++ ((candidates word).find? fun id =>
                      (pages (urlWordPage id)).isSome).toList).map urlWordPage) := by
  rw [findAndParseWordPage_eq_probeInOrder, probeInOrder_recordingProbe]
  simp

/-! ### Audio download -/

/-- C5, the code at the failing input: two audios whose sources both answer not found. When
both goroutines have been started and the second enters `delete(audios, _type)` while the
first is still inside its own, the runtime aborts the process with `concurrent map writes`,
so no audio set is left to look at. When the first leaves its `delete` before the second
enters, the call ends with both audios absent, as the claim has it. -/
theorem downloadAudios_concurrent_deletes_abort :
    downloadAudios (audioGet exampleNoneFound) audioWrite [0, 0, 0, 1, 2] exampleAudios 0
        = .error .concurrentMapWrites
      ∧ (downloadAudios (audioGet exampleNoneFound) audioWrite [0, 0, 0, 1, 1, 2, 2]
          exampleAudios 0).toOption.map (fun d => (d.audios, d.finished))
        = some ([], true) := by
  constructor
  · rfl
  · decide

/-! ### Collocation resolution -/

/-- C6. For a collocation whose search returns at least one entry: when
`findAndParseWordPage` on the first returned entry reports not found and the direct probe of
the word page of the decoded query string `parseCollocationSrc(Src)` reports found, and the
download of the audios of that page (if it has any) ends without a panic, then the goroutine
ends without a panic and leaves the collocation with the first returned entry as its nested
entry, whose `JishoWordPage` is the decoded query string. -/
theorem resolveCollocation_falls_back_to_decoded_query {σ : Type}
    (parseAPI : GoString → Run σ (List Word)) (parseWordPage : GoString → Run σ Page)
    (downloadAudios : Audios → Run σ Audios) (collocation : Collocation)
    (word0 : Word) (others : List Word) (notFound : Found) (audios : Option Audios)
    (collocations : Option Collocations) (s s1 s2 s3 : σ)
    (hsearch : parseAPI (urlAPICollocation (parseCollocationSrc collocation.Src)) s
      = .ok (word0 :: others, s1))
    (hprobes : findAndParseWordPage parseWordPage word0 s1 = .ok (notFound, s2))
    (hnot : notFound.2.2.2 = false)
    (hdirect : parseWordPage (urlWordPage (parseCollocationSrc collocation.Src)) s2
      = .ok ((audios, collocations, true), s3))
    (hdownload : ∀ a, audios = some a → ∃ r, downloadAudios a s3 = .ok r) :
    ∃ (resolved : Collocation) (nested : Word) (s4 : σ),
      resolveCollocation parseAPI parseWordPage downloadAudios collocation s
          = .ok (resolved, s4)
        ∧ resolved.Word = some nested
        ∧ nested.JishoWordPage = parseCollocationSrc collocation.Src
        ∧ nested.Japanese = word0.Japanese
        ∧ resolved.Raw = collocation.Raw ∧ resolved.Src = collocation.Src := by
  obtain ⟨page, audios1, collocations1, ok⟩ := notFound
  simp only at hnot
  subst hnot
  cases audios with
  | none =>
    refine ⟨collocation.setWord
        { word0 with JishoWordPage := parseCollocationSrc collocation.Src, Audios := none },
      { word0 with JishoWordPage := parseCollocationSrc collocation.Src, Audios := none },
      s3, ?_, rfl, rfl, rfl, rfl, rfl⟩
    simp [resolveCollocation, hsearch, hprobes, hdirect, downloadIfAny]
  | some a =>
    obtain ⟨⟨a1, s4⟩, hd⟩ := hdownload a rfl
    refine ⟨collocation.setWord
        { word0 with JishoWordPage := parseCollocationSrc collocation.Src, Audios := some a1 },
      { word0 with JishoWordPage := parseCollocationSrc collocation.Src, Audios := some a1 },
      s4, ?_, rfl, rfl, rfl, rfl, rfl⟩
    simp [resolveCollocation, hsearch, hprobes, hdirect, downloadIfAny, hd]

/-- C6, witness: the entry `neko` found for the collocation has no detail page, the decoded
query string `neko no te` has one. -/
theorem resolveCollocation_falls_back_to_decoded_query_witness :
    ∃ (resolved : Collocation) (nested : Word) (s4 : List GoString),
      resolveCollocation (searchReturning [exampleEntry]) (recordingProbe examplePages)
          keepAudios exampleCollocation [] = .ok (resolved, s4)
        ∧ resolved.Word = some nested
        ∧ nested.JishoWordPage = lit "neko no te" := by
  obtain ⟨resolved, nested, s4, h1, h2, h3, _⟩ :=
    resolveCollocation_falls_back_to_decoded_query (searchReturning [exampleEntry])
      (recordingProbe examplePages) keepAudios exampleCollocation exampleEntry []
      ([], none, none, false) none none []
      []
      [urlWordPage (lit "neko"), urlWordPage (lit "ねこ")]
      [urlWordPage (lit "neko"), urlWordPage (lit "ねこ"), urlWordPage (lit "neko no te")]
      rfl rfl rfl rfl (by simp)
  exact ⟨resolved, nested, s4, h1, h2, h3.trans (by decide)⟩

/-- C7, the code at the failing input: when the search of a collocation returns an empty
list, the goroutine panics with index out of range, and so does the enrichment of the entry
that lists the collocation: the run is aborted. -/
theorem resolveCollocation_empty_search_panics :
    resolveCollocation (searchReturning []) (recordingProbe examplePages) keepAudios
        exampleCollocation [] = .error .indexOutOfRange
      ∧ enrichWord (searchReturning []) (recordingProbe examplePagesWithCollocation)
          keepAudios exampleEntry [] = .error .indexOutOfRange := by
  constructor
  · rfl
  · rfl

/-! ### Decoding the source of a collocation -/

theorem trimPrefix_eq_removeFront (s front : GoString) :
    trimPrefix s front = removeFront front s := by
  have h : hasPrefix s front = front.isPrefixOf s := by
    rw [Bool.eq_iff_iff, List.isPrefixOf_iff_prefix, List.prefix_iff_eq_take, hasPrefix]
    simp only [Bool.and_eq_true, decide_eq_true_eq]
    constructor
    · rintro ⟨_, h2⟩
      exact h2.symm
    · intro h2
      refine ⟨?_, h2.symm⟩
      have := congrArg List.length h2
      rw [List.length_take] at this
      omega
  rw [trimPrefix, removeFront, h]

theorem trimSuffix_eq_removeEnd (s ending : GoString) :
    trimSuffix s ending = removeEnd ending s := by
  have h : hasSuffix s ending = ending.isSuffixOf s := by
    rw [Bool.eq_iff_iff, List.isSuffixOf_iff_suffix, List.suffix_iff_eq_drop, hasSuffix]
    simp only [Bool.and_eq_true, decide_eq_true_eq]
    constructor
    · rintro ⟨_, h2⟩
      exact h2.symm
    · intro h2
      refine ⟨?_, h2.symm⟩
      have := congrArg List.length h2
      rw [List.length_drop] at this
      omega
  rw [trimSuffix, removeEnd, h]

set_option maxRecDepth 100000 in
theorem ishex_eq_hexValue : ∀ c : Byte, ishex c = (hexValue c).isSome := by
  decide

set_option maxRecDepth 100000 in
theorem unhex_eq_hexValue :
    ∀ c : Byte, unhex c = (hexValue c).getD 0 ∧ (hexValue c).getD 0 < 16 := by
  decide

theorem hex_byte_eq : ∀ h l : Fin 16, (h.val * 16) % 256 ||| l.val = 16 * h.val + l.val := by
  decide

theorem unescape_byte (x y : Byte) (h l : Nat) (hx : hexValue x = some h)
    (hy : hexValue y = some l) :
    (Fin.ofNat ((unhex x * 16) % 256 ||| unhex y) : Byte) = Fin.ofNat (16 * h + l) := by
  have hx1 := unhex_eq_hexValue x
  have hy1 := unhex_eq_hexValue y
  rw [hx] at hx1
  rw [hy] at hy1
  simp only [Option.getD_some] at hx1 hy1
  rw [hx1.1, hy1.1]
  have := hex_byte_eq ⟨h, hx1.2⟩ ⟨l, hy1.2⟩
  simp only at this
  rw [this]

theorem unescapeScan_cons (c : Byte) (s : GoString) (n : Nat) (hasPlus : Bool) :
    unescapeScan (c :: s) n hasPlus
      = if c = 37 then
          match s with
          | a :: b :: rest =>
            if ishex a && ishex b then unescapeScan rest (n + 1) hasPlus else none
          | _ => none
        else if c = 43 then unescapeScan s n true
        else unescapeScan s n hasPlus := by
  cases s with
  | nil => rfl
  | cons a s =>
    cases s with
    | nil => rfl
    | cons b rest => rfl

theorem unescapeBuild_cons (c : Byte) (s : GoString) :
    unescapeBuild (c :: s)
      = if c = 37 then
          match s with
          | a :: b :: rest =>
            Fin.ofNat ((unhex a * 16) % 256 ||| unhex b) :: unescapeBuild rest
          | _ => []
        else if c = 43 then (32 : Byte) :: unescapeBuild s
        else c :: unescapeBuild s := by
  cases s with
  | nil => rfl
  | cons a s =>
    cases s with
    | nil => rfl
    | cons b rest => rfl

theorem percentDecode_cons (plusIsSpace : Bool) (c : Byte) (s : GoString) :
    percentDecode plusIsSpace (c :: s)
      = if c = 37 then
          match s with
          | x :: y :: rest =>
            match hexValue x, hexValue y with
            | some h, some l =>
              (percentDecode plusIsSpace rest).map fun d => Fin.ofNat (16 * h + l) :: d
            | _, _ => none
          | _ => none
        else if c = 43 ∧ plusIsSpace = true then
          (percentDecode plusIsSpace s).map fun d => (32 : Byte) :: d
        else (percentDecode plusIsSpace s).map fun d => c :: d := by
  cases s with
  | nil => rfl
  | cons a s =>
    cases s with
    | nil => rfl
    | cons b rest => rfl

theorem unescapeScan_isSome (k : Nat) :
    ∀ (s : GoString) (n : Nat) (hasPlus : Bool), s.length ≤ k →
      (unescapeScan s n hasPlus).isSome = (percentDecode true s).isSome := by
  induction k with
  | zero =>
    intro s n hasPlus hk
    have : s = [] := List.length_eq_zero.mp (Nat.le_zero.mp hk)
    subst this
    rfl
  | succ k ih =>
    intro s n hasPlus hk
    cases s with
    | nil => rfl
    | cons c s =>
      simp only [List.length_cons, Nat.add_le_add_iff_right] at hk
      rw [unescapeScan_cons, percentDecode_cons]
      by_cases hc : c = 37
      · rw [if_pos hc, if_pos hc]
        cases s with
        | nil => rfl
        | cons x s =>
          cases s with
          | nil => rfl
          | cons y rest =>
            simp only [List.length_cons] at hk
            have hx := ishex_eq_hexValue x
            have hy := ishex_eq_hexValue y
            simp only
            cases hvx : hexValue x with
            | none =>
              rw [hvx] at hx
              simp [hx]
            | some h =>
              cases hvy : hexValue y with
              | none =>
                rw [hvy] at hy
                simp [hy]
              | some l =>
                rw [hvx] at hx
                rw [hvy] at hy
                simp only [hx, hy, Option.isSome_some, Bool.and_self, if_true,
                  Option.isSome_map']
                exact ih rest (n + 1) hasPlus (by omega)
      · rw [if_neg hc, if_neg hc]
        by_cases hp : c = 43
        · rw [if_pos hp, if_pos ⟨hp, rfl⟩, Option.isSome_map']
          exact ih s n true hk
        · rw [if_neg hp, if_neg (fun h => hp h.1), Option.isSome_map']
          exact ih s n hasPlus hk

theorem unescapeBuild_eq (k : Nat) :
    ∀ (s d : GoString), s.length ≤ k → percentDecode true s = some d →
      unescapeBuild s = d := by
  induction k with
  | zero =>
    intro s d hk hd
    have : s = [] := List.length_eq_zero.mp (Nat.le_zero.mp hk)
    subst this
    simp only [percentDecode, Option.some.injEq] at hd
    rw [← hd]
    rfl
  | succ k ih =>
    intro s d hk hd
    cases s with
    | nil =>
      simp only [percentDecode, Option.some.injEq] at hd
      rw [← hd]
      rfl
    | cons c s =>
      simp only [List.length_cons, Nat.add_le_add_iff_right] at hk
      rw [percentDecode_cons] at hd
      rw [unescapeBuild_cons]
      by_cases hc : c = 37
      · rw [if_pos hc] at hd ⊢
        cases s with
        | nil => simp at hd
        | cons x s =>
          cases s with
          | nil => simp at hd
          | cons y rest =>
            simp only [List.length_cons] at hk
            simp only at hd ⊢
            cases hvx : hexValue x with
            | none =>
              rw [hvx] at hd
              simp at hd
            | some h =>
              cases hvy : hexValue y with
              | none =>
                rw [hvx, hvy] at hd
                simp at hd
              | some l =>
                rw [hvx, hvy] at hd
                simp only [Option.map_eq_some'] at hd
                obtain ⟨d1, hd1, rfl⟩ := hd
                rw [ih rest d1 (by omega) hd1, unescape_byte x y h l hvx hvy]
      · rw [if_neg hc] at hd ⊢
        by_cases hp : c = 43
        · rw [if_pos ⟨hp, rfl⟩] at hd
          rw [if_pos hp]
          simp only [Option.map_eq_some'] at hd
          obtain ⟨d1, hd1, rfl⟩ := hd
          rw [ih s d1 hk hd1]
        · rw [if_neg (fun h => hp h.1)] at hd
          rw [if_neg hp]
          simp only [Option.map_eq_some'] at hd
          obtain ⟨d1, hd1, rfl⟩ := hd
          rw [ih s d1 hk hd1]

theorem unescapeScan_plain (k : Nat) :
    ∀ (s : GoString) (n : Nat) (hasPlus : Bool) (n1 : Nat) (hasPlus1 : Bool), s.length ≤ k →
      unescapeScan s n hasPlus = some (n1, hasPlus1) →
      n ≤ n1 ∧ (hasPlus = true → hasPlus1 = true)
        ∧ (n1 = n → hasPlus1 = false → unescapeBuild s = s) := by
  induction k with
  | zero =>
    intro s n hasPlus n1 hasPlus1 hk hs
    have : s = [] := List.length_eq_zero.mp (Nat.le_zero.mp hk)
    subst this
    simp only [unescapeScan, Option.some.injEq, Prod.mk.injEq] at hs
    obtain ⟨rfl, rfl⟩ := hs
    exact ⟨le_refl _, id, fun _ _ => rfl⟩
  | succ k ih =>
    intro s n hasPlus n1 hasPlus1 hk hs
    cases s with
    | nil =>
      simp only [unescapeScan, Option.some.injEq, Prod.mk.injEq] at hs
      obtain ⟨rfl, rfl⟩ := hs
      exact ⟨le_refl _, id, fun _ _ => rfl⟩
    | cons c s =>
      simp only [List.length_cons, Nat.add_le_add_iff_right] at hk
      rw [unescapeScan_cons] at hs
      by_cases hc : c = 37
      · rw [if_pos hc] at hs
        cases s with
        | nil => simp at hs
        | cons x s =>
          cases s with
          | nil => simp at hs
          | cons y rest =>
            simp only [List.length_cons] at hk
            simp only at hs
            by_cases hxy : (ishex x && ishex y) = true
            · rw [if_pos hxy] at hs
              obtain ⟨h1, h2, _⟩ := ih rest (n + 1) hasPlus n1 hasPlus1 (by omega) hs
              exact ⟨by omega, h2, fun e => by omega⟩
            · rw [if_neg hxy] at hs
              simp at hs
      · rw [if_neg hc] at hs
        by_cases hp : c = 43
        · rw [if_pos hp] at hs
          obtain ⟨h1, h2, _⟩ := ih s n true n1 hasPlus1 hk hs
          refine ⟨h1, fun _ => h2 rfl, fun _ e => ?_⟩
          rw [h2 rfl] at e
          exact absurd e (by simp)
        · rw [if_neg hp] at hs
          obtain ⟨h1, h2, h3⟩ := ih s n hasPlus n1 hasPlus1 hk hs
          refine ⟨h1, h2, fun e1 e2 => ?_⟩
          rw [unescapeBuild_cons, if_neg hc, if_neg hp, h3 e1 e2]

/-- Go `url.QueryUnescape` is the percent-decoding of a URL query, with the empty string for
a source that cannot be decoded. -/
theorem queryUnescape_eq (s : GoString) :
    (queryUnescape s).1 = (percentDecode true s).getD [] := by
  have h1 := unescapeScan_isSome s.length s 0 false (le_refl _)
  rw [queryUnescape]
  cases hs : unescapeScan s 0 false with
  | none =>
    rw [hs] at h1
    have : percentDecode true s = none := by
      cases hd : percentDecode true s with
      | none => rfl
      | some d =>
        rw [hd] at h1
        simp at h1
    rw [this]
    rfl
  | some r =>
    obtain ⟨n1, hasPlus1⟩ := r
    rw [hs] at h1
    obtain ⟨d, hd⟩ := Option.isSome_iff_exists.mp h1.symm
    have hb := unescapeBuild_eq s.length s d (le_refl _) hd
    obtain ⟨_, _, h3⟩ := unescapeScan_plain s.length s 0 false n1 hasPlus1 (le_refl _) hs
    rw [hd]
    simp only [Option.getD_some]
    by_cases hplain : (n1 = 0 && !hasPlus1) = true
    · rw [if_pos hplain]
      simp only [Bool.and_eq_true, decide_eq_true_eq, Bool.not_eq_true'] at hplain
      rw [← hb, h3 hplain.1 hplain.2]
    · rw [if_neg hplain]
      exact hb

/-- C8, as the code has it. For every source reference `src`, `parseCollocationSrc(src)` is
the string obtained by removing the front `/search/` when present, decoding the rest as a URL
query (each `%` with two hexadecimal digits becomes that byte, each `+` a space, and a rest
that cannot be decoded gives the empty string), removing the ending `#words` when present and
then the surrounding whitespace. -/
theorem parseCollocationSrc_eq_decodedCollocationQuery (src : GoString) :
    parseCollocationSrc src = decodedCollocationQuery src := by
  rw [parseCollocationSrc, decodedCollocationQuery, queryUnescape_eq,
    trimPrefix_eq_removeFront, trimSuffix_eq_removeEnd]

/-- C8, counterexample: on the source `/search/a+b` the stated decoding keeps the `+`, the
code makes it a space. -/
theorem parseCollocationSrc_plus_is_space :
    statedCollocationQuery (lit "/search/a+b") = some (lit "a+b")
      ∧ parseCollocationSrc (lit "/search/a+b") = lit "a b"
      ∧ some (parseCollocationSrc (lit "/search/a+b"))
          ≠ statedCollocationQuery (lit "/search/a+b") := by
  decide

/-! ### Audios of a detail page -/

theorem find?_single_pos (key : GoString) (a : Attribute) (h : a.Key = key) :
    List.find? (fun a => decide (a.Key = key)) [a] = some a :=
  List.find?_cons_of_pos [] (by simpa using h)

theorem find?_single_neg (key : GoString) (a : Attribute) (h : ¬ a.Key = key) :
    List.find? (fun a => decide (a.Key = key)) [a] = none := by
  rw [List.find?_cons_of_neg [] (by simpa using h)]
  rfl

theorem sourceAttrs_eq (attrs : List Attribute) :
    ∀ src _type : GoString,
      sourceAttrs attrs src _type
        = (((attrs.reverse.find? fun a => decide (a.Key = lit "src")).map fun a => a.Val).getD
              src,
           ((attrs.reverse.find? fun a => decide (a.Key = lit "type")).map fun a => a.Val).getD
              _type) := by
  have hne : lit "src" ≠ lit "type" := by decide
  induction attrs with
  | nil =>
    intro src _type
    rfl
  | cons a rest ih =>
    intro src _type
    rw [sourceAttrs, List.reverse_cons, List.find?_append, List.find?_append]
    by_cases h1 : a.Key = lit "src"
    · have h2 : ¬ a.Key = lit "type" := fun e => hne (h1.symm.trans e)
      rw [if_pos h1, ih, find?_single_pos _ a h1, find?_single_neg _ a h2]
      cases List.find? (fun a => decide (a.Key = lit "src")) rest.reverse <;>
        cases List.find? (fun a => decide (a.Key = lit "type")) rest.reverse <;> rfl
    · rw [if_neg h1]
      by_cases h2 : a.Key = lit "type"
      · rw [if_pos h2, ih, find?_single_neg _ a h1, find?_single_pos _ a h2]
        cases List.find? (fun a => decide (a.Key = lit "src")) rest.reverse <;>
          cases List.find? (fun a => decide (a.Key = lit "type")) rest.reverse <;> rfl
      · rw [if_neg h2, ih, find?_single_neg _ a h1, find?_single_neg _ a h2]
        cases List.find? (fun a => decide (a.Key = lit "src")) rest.reverse <;>
          cases List.find? (fun a => decide (a.Key = lit "type")) rest.reverse <;> rfl

theorem sourceAttrs_of_declaredPair (source : Node) (p : GoString × GoString)
    (h : declaredPair source = some p) : sourceAttrs source.Attr [] [] = p := by
  rw [sourceAttrs_eq]
  unfold declaredPair attrValue at h
  cases h1 : List.find? (fun a => decide (a.Key = lit "src")) source.Attr.reverse with
  | none =>
    rw [h1] at h
    simp at h
  | some a1 =>
    cases h2 : List.find? (fun a => decide (a.Key = lit "type")) source.Attr.reverse with
    | none =>
      rw [h1, h2] at h
      simp at h
    | some a2 =>
      rw [h1, h2] at h
      simp only [Option.map_some', Option.some.injEq] at h
      rw [← h]
      rfl

theorem getAudiosLoop_spec (sources : List Node) :
    ∀ audios : Audios, (GoMap.keys audios).Nodup →
      (∀ source ∈ sources, (declaredPair source).isSome = true) →
      (GoMap.keys (getAudiosLoop sources audios)).Nodup
        ∧ ∀ _type, GoMap.get (getAudiosLoop sources audios) _type
            = (((sources.filterMap declaredPair).reverse.find?
                  fun p => decide (p.2 = _type)).map
                fun p => ({ Src := p.1, Filename := [] } : Audio)).orElse
                  fun _ => GoMap.get audios _type := by
  induction sources with
  | nil =>
    intro audios hnd _
    exact ⟨hnd, fun _ => rfl⟩
  | cons source rest ih =>
    intro audios hnd hdecl
    obtain ⟨p, hp⟩ := Option.isSome_iff_exists.mp (hdecl source (List.mem_cons_self _ _))
    have hrest : ∀ source ∈ rest, (declaredPair source).isSome = true :=
      fun x hx => hdecl x (List.mem_cons_of_mem _ hx)
    rw [getAudiosLoop, sourceAttrs_of_declaredPair source p hp]
    simp only
    obtain ⟨h1, h2⟩ := ih (GoMap.set audios p.2 { Src := p.1, Filename := [] })
      (GoMap.nodup_keys_set _ _ _ hnd) hrest
    refine ⟨h1, ?_⟩
    intro _type
    rw [h2, List.filterMap_cons, hp]
    simp only
    rw [List.reverse_cons, List.find?_append]
    cases hf : List.find? (fun p => decide (p.2 = _type))
        (rest.filterMap declaredPair).reverse with
    | some q => rfl
    | none =>
      by_cases hk : p.2 = _type
      · rw [← hk, GoMap.get_set_self]
        simp
      · rw [GoMap.get_set_ne _ _ _ _ (fun e => hk e.symm)]
        simp [List.find?_cons, hk]

/-- C10, as the code has it. For every audio node whose children each declare a source and a
type, `getAudios` returns a map with one audio for each distinct declared type: its size is
the number of distinct declared types, and under each declared type it holds the audio whose
`Src` is the source of the last child declaring that type and whose `Filename` is empty; a
type that no child declares is not bound. -/
theorem getAudios_one_audio_per_declared_type (audioNode : Node)
    (hdecl : ∀ child ∈ audioNode.children, (declaredPair child).isSome = true) :
    (GoMap.keys (getAudios audioNode)).Nodup
      ∧ (getAudios audioNode).length
          = ((declaredPairs audioNode).map Prod.snd).dedup.length
      ∧ ∀ _type, GoMap.get (getAudios audioNode) _type
          = ((declaredPairs audioNode).reverse.find? fun p => decide (p.2 = _type)).map
              fun p => ({ Src := p.1, Filename := [] } : Audio) := by
  obtain ⟨h1, h2⟩ := getAudiosLoop_spec audioNode.children [] (by simp [GoMap.keys]) hdecl
  have hnd : (GoMap.keys (getAudios audioNode)).Nodup := h1
  have hget : ∀ _type, GoMap.get (getAudios audioNode) _type
      = ((declaredPairs audioNode).reverse.find? fun p => decide (p.2 = _type)).map
          fun p => ({ Src := p.1, Filename := [] } : Audio) := by
    intro _type
    rw [getAudios, h2, declaredPairs]
    cases List.find? (fun p => decide (p.2 = _type))
      (audioNode.children.filterMap declaredPair).reverse <;> rfl
  refine ⟨hnd, ?_, hget⟩
  have hperm : (GoMap.keys (getAudios audioNode)).Perm
      ((declaredPairs audioNode).map Prod.snd).dedup := by
    rw [List.perm_ext_iff_of_nodup hnd (List.nodup_dedup _)]
    intro t
    rw [GoMap.mem_keys_iff, hget, List.mem_dedup, Option.isSome_map', List.find?_isSome]
    simp only [List.mem_reverse, decide_eq_true_eq, List.mem_map]
  have hlen := hperm.length_eq
  rw [GoMap.keys, List.length_map] at hlen
  exact hlen

/-- C10, witness: an audio node with an mp3 and an ogg source gives two audios, the mp3 one
under its type. -/
theorem getAudios_one_audio_per_declared_type_witness :
    (getAudios exampleAudioNodeTwoTypes).length = 2
      ∧ GoMap.get (getAudios exampleAudioNodeTwoTypes) (lit "audio/mpeg")
          = some { Src := lit "http://x/a.mp3", Filename := [] } :=
  ⟨(getAudios_one_audio_per_declared_type exampleAudioNodeTwoTypes (by decide)).2.1.trans
      (by decide),
    ((getAudios_one_audio_per_declared_type exampleAudioNodeTwoTypes (by decide)).2.2
      (lit "audio/mpeg")).trans (by decide)⟩

/-- C10, counterexample: an audio node whose two sources declare the same type gives one
audio for two declared pairs, and the first declared pair is not among the audios. -/
theorem getAudios_same_type_sources_collapse :
    (declaredPairs exampleAudioNode).length = 2
      ∧ (getAudios exampleAudioNode).length = 1
      ∧ (lit "http://x/a.mp3", lit "audio/mpeg") ∈ declaredPairs exampleAudioNode
      ∧ GoMap.get (getAudios exampleAudioNode) (lit "audio/mpeg")
          ≠ some { Src := lit "http://x/a.mp3", Filename := [] } := by
  decide

end Crawl
